import Mathlib

/-!
ClickUp time tracker: duration aggregation and status line

A shallow embedding of `cmd/tracker/tracker.go`.

* Go's `int`, `int64` and `time.Duration` are 64-bit two's-complement
  integers: they are modelled as `Int` with an explicit `wrap64` after every
  operation that can overflow.
* A finite `float64` is modelled by the rational number it denotes; every
  floating-point operation computes the exact rational result and rounds it
  with `Float64.round` (round to nearest, ties to even, 53-bit significand).
  Every value that arises in the program has a magnitude of at most `2^64`
  and is either zero or at least `2^(-43)`, so neither overflow nor underflow
  nor a NaN can occur and the exponent range needs no model.
* A Go string decoded by `encoding/json` is valid UTF-8 and is modelled as a
  Lean `String`; `len(s)` is `String.utf8ByteSize`.
* The two HTTP fetches are input: `main` is a function of the two decoded
  responses and of the clock readings.
-/

/-! ## The float64 model -/

namespace Float64

/-- Rounding of a rational to the nearest integer, ties to the even one. -/
def roundHalfEven (q : ℚ) : ℤ :=
  let f := ⌊q⌋
  if q - f < 1 / 2 then f
  else if 1 / 2 < q - f then f + 1
  else if f % 2 = 0 then f
  else f + 1

/-- The binary64 rounding of an exact result `q`: with `e` the exponent that
puts `|q| / 2^e` into `[2^52, 2^53)`, the significand `q / 2^e` is rounded to
the nearest integer, ties to even. -/
def round (q : ℚ) : ℚ :=
  if q = 0 then 0
  else
    let e := Int.log 2 |q| - 52
    (roundHalfEven (q / (2 : ℚ) ^ e) : ℚ) * (2 : ℚ) ^ e

/-- The conversion `float64(x)` of an integer. -/
def ofInt (x : ℤ) : ℚ := round (x : ℚ)

/-- Floating-point addition. -/
def add (x y : ℚ) : ℚ := round (x + y)

/-- Floating-point subtraction. -/
def sub (x y : ℚ) : ℚ := round (x - y)

/-- Floating-point multiplication. -/
def mul (x y : ℚ) : ℚ := round (x * y)

/-- Floating-point division. -/
def div (x y : ℚ) : ℚ := round (x / y)

/-- The conversion `int(f)` of a float64 to the 64-bit `int`: truncation
towards zero. A value outside the range of `int` gives the result of the amd64
instruction `CVTTSD2SQ`, the "integer indefinite" value `-2^63` (the language
leaves this case to the implementation). -/
def toInt (f : ℚ) : ℤ :=
  let t := if 0 ≤ f then ⌊f⌋ else ⌈f⌉
  if -(2 : ℤ) ^ 63 ≤ t ∧ t < (2 : ℤ) ^ 63 then t else -(2 : ℤ) ^ 63

/-- A rational is representable when it is `m * 2^k` with `|m| < 2^53`. -/
def Representable (q : ℚ) : Prop :=
  ∃ m k : ℤ, |m| < 2 ^ 53 ∧ q = (m : ℚ) * (2 : ℚ) ^ k

end Float64

/-! ## Machine integers -/

/-- The value of a 64-bit two's-complement integer after an operation whose
exact result is `x`. -/
def wrap64 (x : ℤ) : ℤ := (x + 2 ^ 63) % 2 ^ 64 - 2 ^ 63

/-! ## `strconv`: `Atoi`, `ParseInt` and `ParseUint` in base 10 -/

namespace strconv

/-- The two kinds of `*NumError`: `syn` is `ErrSyntax`, `range` is `ErrRange`. -/
inductive NumError where
  | syn
  | range
  deriving DecidableEq, Repr

/-- The largest `uint64`. -/
def maxUint64 : ℕ := 2 ^ 64 - 1

/-- The smallest number such that `cutoff * 10 > maxUint64`. -/
def cutoff : ℕ := maxUint64 / 10 + 1

/-- The digit loop of `ParseUint(s, 10, 64)` over the bytes that remain, `n`
being the `uint64` accumulated so far. A byte that is not a decimal digit is
a syntax error with value 0; an overflow of `n * 10` or of `n + d` is a range
error with value `maxVal`. The overflow test of a digit comes before the next
byte is looked at. -/
def parseUintLoop : List Char → ℕ → ℕ × Option NumError
  | [], n => (n, none)
  | c :: cs, n =>
    if !c.isDigit then (0, some NumError.syn)
    else if n ≥ cutoff then (maxUint64, some NumError.range)
    else
      let n10 := (n * 10) % 2 ^ 64
      let n1 := (n10 + (c.toNat - 48)) % 2 ^ 64
      if n1 < n10 ∨ n1 > maxUint64 then (maxUint64, some NumError.range)
      else parseUintLoop cs n1

/-- The call `ParseUint(s, 10, 64)`: the value and the error. -/
def ParseUint (s : List Char) : ℕ × Option NumError :=
  if s = [] then (0, some NumError.syn) else parseUintLoop s 0

/-- The call `ParseInt(s, 10, 0)` with a 64-bit `int`: the value and the error. -/
def ParseInt (s : List Char) : ℤ × Option NumError :=
  match s with
  | [] => (0, some NumError.syn)
  | c :: cs =>
    let neg := decide (c = '-')
    let body := if c = '+' ∨ c = '-' then cs else c :: cs
    let r := ParseUint body
    if r.2 = some NumError.syn then (0, r.2)
    else if !neg ∧ r.1 ≥ 2 ^ 63 then (2 ^ 63 - 1, some NumError.range)
    else if neg ∧ r.1 > 2 ^ 63 then (-2 ^ 63, some NumError.range)
    else
      let n := wrap64 r.1
      (if neg then wrap64 (-n) else n, none)

/-- The digit loop of the fast path of `Atoi`; `none` is the syntax error. -/
def atoiLoop : List Char → ℤ → Option ℤ
  | [], n => some n
  | c :: cs, n =>
    if !c.isDigit then none
    else atoiLoop cs (wrap64 (n * 10 + ((c.toNat - 48 : ℕ) : ℤ)))

/-- The call `Atoi(s)` with a 64-bit `int`: the value and the error. A string of 1 to
18 bytes takes the fast path, every other string goes through `ParseInt`. -/
def Atoi (s : String) : ℤ × Option NumError :=
  let sLen := s.utf8ByteSize
  if 0 < sLen ∧ sLen < 19 then
    match s.data with
    | [] => (0, some NumError.syn)
    | c :: cs =>
      let body := if c = '-' ∨ c = '+' then cs else c :: cs
      if body = [] then (0, some NumError.syn)
      else
        match atoiLoop body 0 with
        | none => (0, some NumError.syn)
        | some n => (if c = '-' then wrap64 (-n) else n, none)
  else ParseInt s.data

end strconv

/-! ## `math` and `time` -/

namespace math

/-- The function `math.Abs` on a finite float64: exact. -/
def Abs (x : ℚ) : ℚ := |x|

/-- The integer value of `math.Floor(x)` for a finite float64 `x`: exact. -/
def Floor (x : ℚ) : ℤ := ⌊x⌋

end math

namespace time

/-- The call `t.Unix()` for a wall-clock instant `t` given in nanoseconds since the
epoch: the whole seconds since the epoch. -/
def Unix (t : ℤ) : ℤ := t / 1000000000

/-- The constant `time.Millisecond` in nanoseconds. -/
def Millisecond : ℤ := 1000000

/-- The call `d.Hours()` for a duration of `d` nanoseconds. Go's integer `/` and `%`
truncate towards zero. -/
def Hours (d : ℤ) : ℚ :=
  let hour := Int.tdiv d 3600000000000
  let nsec := Int.tmod d 3600000000000
  Float64.add (Float64.ofInt hour) (Float64.div (Float64.ofInt nsec) (60 * 60 * 1000000000))

/-- The call `d.Minutes()` for a duration of `d` nanoseconds. -/
def Minutes (d : ℤ) : ℚ :=
  let min := Int.tdiv d 60000000000
  let nsec := Int.tmod d 60000000000
  Float64.add (Float64.ofInt min) (Float64.div (Float64.ofInt nsec) (60 * 1000000000))

end time

/-! ## The tracker -/

namespace tracker

/-- The record `Entry`: `End` is `none` for a JSON `null` or absent `end`. -/
structure Entry where
  Start : String
  End : Option String
  deriving DecidableEq, Repr

/-- The body of the loop of `sumEntries` for one entry, `now` being the
reading of `time.Now()` in this iteration: the amount added to `durMs`. -/
def entryMs (now : ℤ) (entry : Entry) : ℤ :=
  let start := (strconv.Atoi entry.Start).1
  let endNow := wrap64 (time.Unix now * 1000)
  let endMs := match entry.End with
    | some e => (strconv.Atoi e).1
    | none => endNow
  Float64.toInt (Float64.sub (math.Abs (Float64.ofInt endMs)) (math.Abs (Float64.ofInt start)))

/-- The loop of `sumEntries` from iteration `i` on with `durMs` accumulated;
`clock i` is the reading of `time.Now()` in iteration `i`. -/
def sumLoop (clock : ℕ → ℤ) : List Entry → ℕ → ℤ → ℤ
  | [], _, durMs => durMs
  | entry :: rest, i, durMs =>
    sumLoop clock rest (i + 1) (wrap64 (durMs + entryMs (clock i) entry))

/-- The function `sumEntries`: the `time.Duration` returned, in nanoseconds. -/
def sumEntries (clock : ℕ → ℤ) (entries : List Entry) : ℤ :=
  wrap64 (sumLoop clock entries 0 0 * time.Millisecond)

end tracker

/-! ## `fmt`: the verb `%v` on a float64 -/

namespace fmt

/-- The two or three digits `dd` or `ddd` of the exponent in the format `%e`. -/
def expDigits (exp : ℕ) : List Char :=
  if exp < 10 then ['0', Nat.digitChar exp]
  else if exp < 100 then [Nat.digitChar (exp / 10), Nat.digitChar (exp % 10)]
  else [Nat.digitChar (exp / 100), Nat.digitChar (exp / 10 % 10), Nat.digitChar (exp % 10)]

/-- The function `fmtE` of `strconv` for a number with the digits `d`, the
decimal point after `dp` digits and `prec` digits after the point; `dp ≥ 1`
here, so the exponent is not negative. -/
def fmtE (neg : Bool) (d : List Char) (dp : ℕ) (prec : ℕ) : List Char :=
  (if neg then ['-'] else []) ++ [d.headD '0'] ++
    (if prec > 0 then
      '.' :: ((d.take (min d.length (prec + 1))).drop 1 ++
        List.replicate (prec + 1 - max 1 (min d.length (prec + 1))) '0')
    else []) ++
    ['e', '+'] ++ expDigits (if d.length = 0 then 0 else dp - 1)

/-- The function `fmtF` of `strconv` with no digit after the point. -/
def fmtF (neg : Bool) (d : List Char) (dp : ℕ) : List Char :=
  (if neg then ['-'] else []) ++
    (if dp > 0 then d.take (min d.length dp) ++ List.replicate (dp - min d.length dp) '0'
    else ['0'])

/-- The verb `%v` (that is `%g` with the shortest precision) applied to a
float64 whose value is the integer `n`, `|n| < 2^53`. Such a value is its own
shortest decimal: its digits `d` are the decimal digits of `|n|` without the
trailing zeros and the decimal point stands after all `dp` digits of `|n|`.
The format `%e` is taken when the exponent `dp - 1` is below `-4` or at least
`6`, the format `%f` otherwise. -/
def formatFloat (n : ℤ) : String :=
  let a := n.natAbs
  let all := if a = 0 then [] else Nat.toDigits 10 a
  let d := all.rdropWhile (fun c => c == '0')
  let dp := all.length
  let exp : ℤ := (dp : ℤ) - 1
  String.mk (if exp < -4 ∨ exp ≥ 6 then fmtE (decide (n < 0)) d dp (d.length - 1)
    else fmtF (decide (n < 0)) d dp)

end fmt

/-! ## `main` -/

namespace tracker

/-- The slice that `main` passes to `sumEntries`: the fetched entries, with
the current entry appended when the second response has one. -/
def summedEntries (data : List Entry) (currentTask : Option Entry) : List Entry :=
  match currentTask with
  | some c => data ++ [c]
  | none => data

/-- The float64 `hours` of `main` (an integer) for the total `total`. -/
def hoursOf (total : ℤ) : ℤ := math.Floor (time.Hours total)

/-- The float64 `minutes` of `main` (an integer) for the total `total`. -/
def minutesOf (total : ℤ) : ℤ :=
  math.Floor (Float64.sub (time.Minutes total) (Float64.mul (hoursOf total : ℚ) 60))

/-- The string `overtimeFlag` of `main`. -/
def overtimeFlag (hours : ℤ) : String := if hours ≥ 8 then " [!]" else ""

/-- The string `ongoingFlag` of `main`. -/
def ongoingFlag (currentTask : Option Entry) : String :=
  if currentTask.isSome then " [+]" else ""

/-- The function `main` from the point where both fetches have returned:
`data` is the decoded `data` of the entries response (the result of
`fetchEntries`), `currentTask` the decoded `data` of the current-entry
response (the result of `hasOngoingTask`), `clock i` the reading of
`time.Now()` in iteration `i` of the loop of `sumEntries`. The result is the
text written to standard output. -/
def main (data : List Entry) (currentTask : Option Entry) (clock : ℕ → ℤ) : String :=
  let entries := summedEntries data currentTask
  let total := sumEntries clock entries
  let hours := hoursOf total
  let minutes := minutesOf total
  fmt.formatFloat hours ++ ":" ++ fmt.formatFloat minutes ++ ongoingFlag currentTask ++
    overtimeFlag hours ++ "\n"

end tracker

/-! ## Decimal integer strings -/

/-- The number written by the decimal digits `ds` after the digits that gave `n`. -/
def digitsFrom (n : ℕ) (ds : List Char) : ℕ :=
  ds.foldl (fun a c => a * 10 + (c.toNat - 48)) n

/-- The number written by the decimal digits `ds`. -/
def digitsValue (ds : List Char) : ℕ := digitsFrom 0 ds

/-- The characters of `s` after an optional leading sign. -/
def unsignedPart (s : String) : List Char :=
  match s.data with
  | [] => []
  | c :: cs => if c = '-' ∨ c = '+' then cs else c :: cs

/-- The string is a decimal integer: an optional sign and then one or more
decimal digits, nothing else. -/
def isDecimal (s : String) : Bool :=
  !(unsignedPart s).isEmpty && (unsignedPart s).all Char.isDigit

/-- The integer that a decimal integer string writes. -/
def decimalValue (s : String) : ℤ :=
  if s.data.head? = some '-' then -(digitsValue (unsignedPart s) : ℤ)
  else (digitsValue (unsignedPart s) : ℤ)

/-! ## Notions of the specification -/

/-- The amount `|end| - |start|` of an interval whose start and end are the
integers written by its two strings. -/
def intervalMs (e : tracker.Entry) : ℤ :=
  |decimalValue (e.End.getD "")| - |decimalValue e.Start|

/-- A completed interval whose start and end strings are decimal integers of
magnitude below `2^53`. -/
def completedDecimal (e : tracker.Entry) : Bool :=
  isDecimal e.Start && decide (|decimalValue e.Start| < 2 ^ 53) &&
    match e.End with
    | some x => isDecimal x && decide (|decimalValue x| < 2 ^ 53)
    | none => false

/-- The current wall-clock time in milliseconds since the epoch at the
instant `t`, given in nanoseconds since the epoch. -/
def nowMs (t : ℤ) : ℤ := t / 1000000

/-- A non-numeric string: empty, or containing a letter, a space, a decimal
point or an underscore. -/
def nonNumeric (s : String) : Bool :=
  s.data.isEmpty || s.data.any (fun c => c.isAlpha || c == ' ' || c == '.' || c == '_')

/-- The run of decimal digits at the start of `s`, after an optional sign. -/
def leadingDigits (s : String) : List Char :=
  (unsignedPart s).takeWhile Char.isDigit

/-- The plain decimal numeral of an integer. -/
def decimal (n : ℤ) : String :=
  (if n < 0 then "-" else "") ++ Nat.repr n.natAbs

/-- The total of `total` nanoseconds expressed in minutes, as an exact rational. -/
def totalMinutes (total : ℤ) : ℚ := (total : ℚ) / 60000000000

/-- The text `l` contains the marker `m`. -/
def containsMarker (m : String) (l : String) : Prop := m.data <:+: l.data

/-! ## Properties of the float64 model -/

namespace Float64

theorem roundHalfEven_intCast (n : ℤ) : roundHalfEven (n : ℚ) = n := by
  unfold roundHalfEven
  simp

theorem roundHalfEven_le_floor_add_one (x : ℚ) : roundHalfEven x ≤ ⌊x⌋ + 1 := by
  unfold roundHalfEven
  simp only
  split_ifs <;> omega

theorem floor_le_roundHalfEven (x : ℚ) : ⌊x⌋ ≤ roundHalfEven x := by
  unfold roundHalfEven
  simp only
  split_ifs <;> omega

theorem roundHalfEven_mono {x y : ℚ} (h : x ≤ y) :
    roundHalfEven x ≤ roundHalfEven y := by
  rcases lt_or_eq_of_le (Int.floor_mono h) with hlt | heq
  · have h1 := roundHalfEven_le_floor_add_one x
    have h2 := floor_le_roundHalfEven y
    omega
  · unfold roundHalfEven
    simp only
    rw [heq]
    split_ifs <;> first | omega | (exfalso; linarith)

/-- If `q` is within less than one half of the integer `m`, it rounds to `m`. -/
theorem roundHalfEven_eq_of_near {q : ℚ} {m : ℤ} (h1 : (m : ℚ) - 1 / 2 < q)
    (h2 : q < (m : ℚ) + 1 / 2) : roundHalfEven q = m := by
  have hfl : ⌊q⌋ = m ∨ ⌊q⌋ = m - 1 := by
    have a1 : m - 1 ≤ ⌊q⌋ := by
      rw [Int.le_floor]; push_cast; linarith
    have a2 : ⌊q⌋ < m + 1 := by
      rw [Int.floor_lt]; push_cast; linarith
    omega
  unfold roundHalfEven
  simp only
  rcases hfl with hf | hf
  · rw [hf]
    split_ifs <;> first | omega | (exfalso; linarith)
  · rw [hf]
    push_cast
    split_ifs <;> first | omega | (exfalso; linarith)

theorem two_zpow_pos (e : ℤ) : (0 : ℚ) < (2 : ℚ) ^ e := by positivity

/-- The exponent chosen by `round` puts the significand into `[2^52, 2^53)`. -/
theorem scaled_bounds {q : ℚ} (hq : q ≠ 0) :
    (2 : ℚ) ^ (52 : ℤ) ≤ |q| / (2 : ℚ) ^ (Int.log 2 |q| - 52) ∧
      |q| / (2 : ℚ) ^ (Int.log 2 |q| - 52) < (2 : ℚ) ^ (53 : ℤ) := by
  have hpos : (0 : ℚ) < |q| := abs_pos.mpr hq
  have h1 := Int.zpow_log_le_self (b := 2) (by norm_num) hpos
  have h2 := Int.lt_zpow_succ_log_self (b := 2) (by norm_num) |q|
  simp only [Nat.cast_ofNat] at h1 h2
  have he := two_zpow_pos (Int.log 2 |q| - 52)
  constructor
  · rw [le_div_iff₀ he, ← zpow_add₀ (by norm_num : (2 : ℚ) ≠ 0)]
    simpa using h1
  · rw [div_lt_iff₀ he, ← zpow_add₀ (by norm_num : (2 : ℚ) ≠ 0)]
    have : (53 : ℤ) + (Int.log 2 |q| - 52) = Int.log 2 |q| + 1 := by ring
    rw [this]
    exact h2

theorem round_zero : round 0 = 0 := by
  simp [round]

theorem round_nonneg {q : ℚ} (h : 0 ≤ q) : 0 ≤ round q := by
  unfold round
  split_ifs with h0
  · exact le_refl _
  · simp only
    have he := two_zpow_pos (Int.log 2 |q| - 52)
    have : (0 : ℤ) ≤ roundHalfEven (q / (2 : ℚ) ^ (Int.log 2 |q| - 52)) := by
      have := roundHalfEven_mono (x := ((0 : ℤ) : ℚ))
        (y := q / (2 : ℚ) ^ (Int.log 2 |q| - 52)) (by push_cast; positivity)
      rwa [roundHalfEven_intCast] at this
    have h' : (0 : ℚ) ≤ (roundHalfEven (q / (2 : ℚ) ^ (Int.log 2 |q| - 52)) : ℚ) := by
      exact_mod_cast this
    positivity

theorem round_nonpos {q : ℚ} (h : q ≤ 0) : round q ≤ 0 := by
  unfold round
  split_ifs with h0
  · exact le_refl _
  · simp only
    have he := two_zpow_pos (Int.log 2 |q| - 52)
    have : roundHalfEven (q / (2 : ℚ) ^ (Int.log 2 |q| - 52)) ≤ (0 : ℤ) := by
      have := roundHalfEven_mono (x := q / (2 : ℚ) ^ (Int.log 2 |q| - 52))
        (y := ((0 : ℤ) : ℚ)) (by push_cast; exact div_nonpos_of_nonpos_of_nonneg h he.le)
      rwa [roundHalfEven_intCast] at this
    have h' : (roundHalfEven (q / (2 : ℚ) ^ (Int.log 2 |q| - 52)) : ℚ) ≤ 0 := by
      exact_mod_cast this
    exact mul_nonpos_of_nonpos_of_nonneg h' he.le

/-- The value `round` gives to a nonzero `q`, with the exponent named. -/
theorem round_of_ne_zero {q : ℚ} (hq : q ≠ 0) :
    round q = (roundHalfEven (q / (2 : ℚ) ^ (Int.log 2 |q| - 52)) : ℚ) *
      (2 : ℚ) ^ (Int.log 2 |q| - 52) := by
  unfold round
  rw [if_neg hq]

/-- Bounds of a rounded positive number in terms of its exponent. -/
theorem round_pos_bounds {q : ℚ} (hq : 0 < q) :
    (2 : ℚ) ^ (Int.log 2 q + 0) ≤ round q ∧ round q ≤ (2 : ℚ) ^ (Int.log 2 q + 1) := by
  have hb := scaled_bounds hq.ne.symm
  rw [round_of_ne_zero hq.ne.symm]
  rw [abs_of_pos hq] at hb ⊢
  set e := Int.log 2 q - 52 with he_def
  have he := two_zpow_pos e
  have l1 : ((2 : ℤ) ^ 52 : ℤ) ≤ roundHalfEven (q / (2 : ℚ) ^ e) := by
    have := roundHalfEven_mono (x := (((2 : ℤ) ^ 52 : ℤ) : ℚ)) (y := q / (2 : ℚ) ^ e)
      (by push_cast; exact_mod_cast hb.1)
    rwa [roundHalfEven_intCast] at this
  have l2 : roundHalfEven (q / (2 : ℚ) ^ e) ≤ ((2 : ℤ) ^ 53 : ℤ) := by
    have := roundHalfEven_mono (x := q / (2 : ℚ) ^ e) (y := (((2 : ℤ) ^ 53 : ℤ) : ℚ))
      (by push_cast; exact_mod_cast hb.2.le)
    rwa [roundHalfEven_intCast] at this
  have l1' : ((2 : ℚ) ^ (52 : ℤ)) ≤ (roundHalfEven (q / (2 : ℚ) ^ e) : ℚ) := by
    exact_mod_cast l1
  have l2' : (roundHalfEven (q / (2 : ℚ) ^ e) : ℚ) ≤ ((2 : ℚ) ^ (53 : ℤ)) := by
    exact_mod_cast l2
  have e1 : (2 : ℚ) ^ (Int.log 2 q + 0) = (2 : ℚ) ^ (52 : ℤ) * (2 : ℚ) ^ e := by
    rw [← zpow_add₀ (by norm_num : (2 : ℚ) ≠ 0)]; congr 1; rw [he_def]; ring
  have e2 : (2 : ℚ) ^ (Int.log 2 q + 1) = (2 : ℚ) ^ (53 : ℤ) * (2 : ℚ) ^ e := by
    rw [← zpow_add₀ (by norm_num : (2 : ℚ) ≠ 0)]; congr 1; rw [he_def]; ring
  rw [e1, e2]
  exact ⟨mul_le_mul_of_nonneg_right l1' he.le, mul_le_mul_of_nonneg_right l2' he.le⟩

theorem roundHalfEven_neg (x : ℚ) : roundHalfEven (-x) = -roundHalfEven x := by
  by_cases hx : x = (⌊x⌋ : ℚ)
  · rw [hx, ← Int.cast_neg, roundHalfEven_intCast, roundHalfEven_intCast]
  · have h1 := Int.floor_le x
    have h2 := Int.lt_floor_add_one x
    have h3 : (⌊x⌋ : ℚ) < x := lt_of_le_of_ne h1 (Ne.symm hx)
    have hf : ⌊-x⌋ = -⌊x⌋ - 1 := by
      rw [Int.floor_eq_iff]; push_cast; constructor <;> linarith
    unfold roundHalfEven
    simp only
    rw [hf]
    push_cast
    split_ifs <;> first | omega | (exfalso; linarith)

theorem round_neg (q : ℚ) : round (-q) = -round q := by
  unfold round
  by_cases h : q = 0
  · simp [h]
  · rw [if_neg h, if_neg (neg_ne_zero.mpr h)]
    simp only [abs_neg, neg_div, roundHalfEven_neg]
    push_cast
    ring

theorem round_mono_of_pos {x y : ℚ} (hx : 0 < x) (h : x ≤ y) : round x ≤ round y := by
  have hy : 0 < y := lt_of_lt_of_le hx h
  rcases lt_or_eq_of_le (Int.log_mono_right (b := 2) hx h) with hlt | heq
  · have b1 := (round_pos_bounds hx).2
    have b2 := (round_pos_bounds hy).1
    have : (2 : ℚ) ^ (Int.log 2 x + 1) ≤ (2 : ℚ) ^ (Int.log 2 y + 0) :=
      zpow_le_zpow_right₀ (by norm_num) (by omega)
    linarith
  · rw [round_of_ne_zero hx.ne.symm, round_of_ne_zero hy.ne.symm, abs_of_pos hx,
      abs_of_pos hy, heq]
    have he := two_zpow_pos (Int.log 2 y - 52)
    have := roundHalfEven_mono (div_le_div_of_nonneg_right h he.le)
    have h' : (roundHalfEven (x / (2 : ℚ) ^ (Int.log 2 y - 52)) : ℚ) ≤
        (roundHalfEven (y / (2 : ℚ) ^ (Int.log 2 y - 52)) : ℚ) := by
      exact_mod_cast this
    exact mul_le_mul_of_nonneg_right h' he.le

/-- Rounding is monotone. -/
theorem round_mono {x y : ℚ} (h : x ≤ y) : round x ≤ round y := by
  rcases lt_trichotomy 0 x with hx | hx | hx
  · exact round_mono_of_pos hx h
  · subst hx
    rw [round_zero]
    exact round_nonneg h
  · rcases le_or_lt 0 y with hy | hy
    · exact le_trans (round_nonpos hx.le) (round_nonneg hy)
    · have := round_mono_of_pos (x := -y) (y := -x) (by linarith) (by linarith)
      rw [round_neg, round_neg] at this
      linarith

/-- Rounding leaves a representable number unchanged. -/
theorem round_of_representable {q : ℚ} (h : Representable q) : round q = q := by
  obtain ⟨m, k, hm, rfl⟩ := h
  by_cases hm0 : m = 0
  · subst hm0
    simp [round_zero]
  have hmq : (m : ℚ) ≠ 0 := by exact_mod_cast hm0
  have hq : (m : ℚ) * (2 : ℚ) ^ k ≠ 0 := mul_ne_zero hmq (two_zpow_pos k).ne.symm
  rw [round_of_ne_zero hq]
  set L := Int.log 2 |(m : ℚ) * (2 : ℚ) ^ k| with hL
  have hpos : (0 : ℚ) < |(m : ℚ) * (2 : ℚ) ^ k| := abs_pos.mpr hq
  have h1 := Int.zpow_log_le_self (b := 2) (by norm_num) hpos
  simp only [Nat.cast_ofNat] at h1
  rw [← hL] at h1
  have habs : |(m : ℚ) * (2 : ℚ) ^ k| < (2 : ℚ) ^ (53 + k) := by
    rw [abs_mul, abs_of_pos (two_zpow_pos k), zpow_add₀ (by norm_num : (2 : ℚ) ≠ 0)]
    have : |(m : ℚ)| < (2 : ℚ) ^ (53 : ℤ) := by
      have : ((|m| : ℤ) : ℚ) < (((2 : ℤ) ^ 53 : ℤ) : ℚ) := by exact_mod_cast hm
      rw [Int.cast_abs] at this
      exact_mod_cast this
    exact mul_lt_mul_of_pos_right this (two_zpow_pos k)
  have hLk : L < 53 + k := by
    by_contra hcon
    push_neg at hcon
    have : (2 : ℚ) ^ (53 + k) ≤ (2 : ℚ) ^ L := zpow_le_zpow_right₀ (by norm_num) hcon
    linarith
  obtain ⟨j, hj⟩ : ∃ j : ℕ, k - (L - 52) = (j : ℤ) := ⟨(k - (L - 52)).toNat, by omega⟩
  have hdiv : (m : ℚ) * (2 : ℚ) ^ k / (2 : ℚ) ^ (L - 52) = ((m * 2 ^ j : ℤ) : ℚ) := by
    rw [mul_div_assoc, ← zpow_sub₀ (by norm_num : (2 : ℚ) ≠ 0), hj]
    push_cast
    rw [zpow_natCast]
  rw [hdiv, roundHalfEven_intCast]
  push_cast
  rw [mul_assoc, ← zpow_natCast, ← zpow_add₀ (by norm_num : (2 : ℚ) ≠ 0), ← hj]
  congr 2
  ring

/-- A value between two representable numbers rounds to a value between them. -/
theorem round_between {a x b : ℚ} (ha : Representable a) (hb : Representable b)
    (h1 : a ≤ x) (h2 : x ≤ b) : a ≤ round x ∧ round x ≤ b := by
  constructor
  · have := round_mono h1
    rwa [round_of_representable ha] at this
  · have := round_mono h2
    rwa [round_of_representable hb] at this

/-- An integer of magnitude below `2^53` is representable. -/
theorem representable_intCast {n : ℤ} (h : |n| < 2 ^ 53) : Representable (n : ℚ) :=
  ⟨n, 0, h, by simp⟩

/-- The conversion `float64(x)` is exact below `2^53`. -/
theorem ofInt_exact {n : ℤ} (h : |n| < 2 ^ 53) : ofInt n = (n : ℚ) :=
  round_of_representable (representable_intCast h)

end Float64

/-! ## Properties of `wrap64` and of `strconv` -/

open tracker

theorem wrap64_of_range {x : ℤ} (h1 : -2 ^ 63 ≤ x) (h2 : x < 2 ^ 63) : wrap64 x = x := by
  unfold wrap64
  omega

theorem wrap64_range (x : ℤ) : -2 ^ 63 ≤ wrap64 x ∧ wrap64 x < 2 ^ 63 := by
  unfold wrap64
  omega

theorem isDigit_toNat {c : Char} (h : c.isDigit = true) : c.toNat - 48 ≤ 9 := by
  simp only [Char.isDigit, Bool.and_eq_true, decide_eq_true_eq] at h
  have h2 := h.2
  rw [UInt32.le_def] at h2
  have : c.toNat ≤ 57 := h2
  omega

theorem digitsFrom_cons (n : ℕ) (c : Char) (cs : List Char) :
    digitsFrom n (c :: cs) = digitsFrom (n * 10 + (c.toNat - 48)) cs := rfl

theorem le_digitsFrom (n : ℕ) (ds : List Char) : n ≤ digitsFrom n ds := by
  induction ds generalizing n with
  | nil => exact le_refl _
  | cons c cs ih =>
    rw [digitsFrom_cons]
    have := ih (n * 10 + (c.toNat - 48))
    omega

namespace strconv

theorem parseUintLoop_digits (ds : List Char) (n : ℕ) (hd : ∀ c ∈ ds, c.isDigit = true)
    (hv : digitsFrom n ds < 2 ^ 64) : parseUintLoop ds n = (digitsFrom n ds, none) := by
  induction ds generalizing n with
  | nil => rfl
  | cons c cs ih =>
    have hc : c.isDigit = true := hd c (List.mem_cons_self _ _)
    have hle := le_digitsFrom (n * 10 + (c.toNat - 48)) cs
    rw [digitsFrom_cons] at hv ⊢
    have hn : n * 10 + (c.toNat - 48) < 2 ^ 64 := lt_of_le_of_lt hle hv
    unfold parseUintLoop
    simp only [hc, Bool.not_true, Bool.false_eq_true, if_false, cutoff, maxUint64]
    rw [if_neg (by omega)]
    have e1 : n * 10 % 2 ^ 64 = n * 10 := Nat.mod_eq_of_lt (by omega)
    have e2 : (n * 10 + (c.toNat - 48)) % 2 ^ 64 = n * 10 + (c.toNat - 48) :=
      Nat.mod_eq_of_lt hn
    simp only [e1, e2]
    rw [if_neg (by omega)]
    exact ih _ (fun c hc => hd c (List.mem_cons_of_mem _ hc)) hv

theorem atoiLoop_digits (ds : List Char) (n : ℕ) (hd : ∀ c ∈ ds, c.isDigit = true)
    (hv : digitsFrom n ds < 2 ^ 63) :
    atoiLoop ds (n : ℤ) = some ((digitsFrom n ds : ℕ) : ℤ) := by
  induction ds generalizing n with
  | nil => rfl
  | cons c cs ih =>
    have hc : c.isDigit = true := hd c (List.mem_cons_self _ _)
    have hle := le_digitsFrom (n * 10 + (c.toNat - 48)) cs
    rw [digitsFrom_cons] at hv ⊢
    have hn : n * 10 + (c.toNat - 48) < 2 ^ 63 := lt_of_le_of_lt hle hv
    unfold atoiLoop
    simp only [hc, Bool.not_true, Bool.false_eq_true, if_false]
    have e : wrap64 ((n : ℤ) * 10 + ((c.toNat - 48 : ℕ) : ℤ)) =
        ((n * 10 + (c.toNat - 48) : ℕ) : ℤ) := by
      rw [wrap64_of_range] <;> push_cast <;> omega
    rw [e]
    exact ih _ (fun c hc => hd c (List.mem_cons_of_mem _ hc)) hv

theorem ParseInt_digits (c : Char) (cs body : List Char)
    (hb : (if c = '-' ∨ c = '+' then cs else c :: cs) = body) (hne : body ≠ [])
    (hd : ∀ x ∈ body, x.isDigit = true) (hv : digitsValue body < 2 ^ 63) :
    ParseInt (c :: cs) =
      (if c = '-' then -(digitsValue body : ℤ) else (digitsValue body : ℤ), none) := by
  have hbody : (if c = '+' ∨ c = '-' then cs else c :: cs) = body := by
    rw [← hb]
    by_cases h1 : c = '-' <;> by_cases h2 : c = '+' <;> simp [h1, h2]
  have hu : ParseUint body = (digitsValue body, none) := by
    unfold ParseUint
    rw [if_neg hne]
    exact parseUintLoop_digits body 0 hd (by unfold digitsValue at hv; omega)
  unfold ParseInt
  simp only [hbody, hu]
  have hw : wrap64 ((digitsValue body : ℕ) : ℤ) = ((digitsValue body : ℕ) : ℤ) := by
    apply wrap64_of_range <;> omega
  have hw2 : wrap64 (-((digitsValue body : ℕ) : ℤ)) = -((digitsValue body : ℕ) : ℤ) := by
    apply wrap64_of_range <;> omega
  by_cases h1 : c = '-'
  · simp only [h1, decide_True, Bool.not_true, Bool.false_eq_true, false_and, if_false,
      true_and, hw, hw2, if_true]
    rw [if_neg (by simp), if_neg (by omega)]
  · simp only [h1, decide_False, Bool.not_false, true_and, false_and, if_false, hw,
      Bool.false_eq_true]
    rw [if_neg (by simp), if_neg (by omega)]

theorem Atoi_digits (s : String) (c : Char) (cs body : List Char) (hs : s.data = c :: cs)
    (hb : (if c = '-' ∨ c = '+' then cs else c :: cs) = body) (hne : body ≠ [])
    (hd : ∀ x ∈ body, x.isDigit = true) (hv : digitsValue body < 2 ^ 63) :
    Atoi s =
      (if c = '-' then -(digitsValue body : ℤ) else (digitsValue body : ℤ), none) := by
  unfold Atoi
  simp only
  by_cases hfast : 0 < s.utf8ByteSize ∧ s.utf8ByteSize < 19
  · rw [if_pos hfast, hs]
    simp only [hb]
    rw [if_neg hne]
    have := atoiLoop_digits body 0 hd (by unfold digitsValue at hv; omega)
    simp only [Nat.cast_zero] at this
    rw [this]
    simp only
    have hw2 : wrap64 (-((digitsFrom 0 body : ℕ) : ℤ)) = -((digitsFrom 0 body : ℕ) : ℤ) := by
      unfold digitsValue at hv
      apply wrap64_of_range <;> omega
    rw [hw2]
    rfl
  · rw [if_neg hfast, hs]
    exact ParseInt_digits c cs body hb hne hd hv

end strconv

/-- On a decimal integer string whose value fits 64 bits, `Atoi` returns that
value and no error. -/
theorem Atoi_decimal (s : String) (hd : isDecimal s = true)
    (hv : |decimalValue s| < 2 ^ 63) : strconv.Atoi s = (decimalValue s, none) := by
  unfold isDecimal at hd
  unfold decimalValue at hv ⊢
  unfold unsignedPart at hd hv ⊢
  rcases hs : s.data with _ | ⟨c, cs⟩
  · rw [hs] at hd
    simp at hd
  · rw [hs] at hd hv
    simp only [Bool.and_eq_true, Bool.not_eq_true', List.isEmpty_eq_false,
      List.all_eq_true, List.head?_cons, Option.some.injEq] at hd hv ⊢
    generalize hb : (if c = '-' ∨ c = '+' then cs else c :: cs) = body at hd hv ⊢
    have h3 : digitsValue body < 2 ^ 63 := by
      split_ifs at hv <;> rw [abs_lt] at hv <;> omega
    rw [strconv.Atoi_digits s c cs body hs hb hd.1 hd.2 h3]

/-! ## The loop of `sumEntries` -/

theorem wrap64_add_wrap64 (a b : ℤ) : wrap64 (wrap64 a + b) = wrap64 (a + b) := by
  unfold wrap64
  omega

theorem wrap64_zero : wrap64 0 = 0 := by decide

namespace Float64

theorem toInt_intCast {n : ℤ} (h1 : -2 ^ 63 ≤ n) (h2 : n < 2 ^ 63) : toInt (n : ℚ) = n := by
  unfold toInt
  simp only [Int.floor_intCast, Int.ceil_intCast, ite_self]
  rw [if_pos ⟨h1, h2⟩]

/-- The expression `int(math.Abs(float64(b)) - math.Abs(float64(a)))` is
exact when both integers have a magnitude below `2^53`. -/
theorem absDiff_exact {a b : ℤ} (ha : |a| < 2 ^ 53) (hb : |b| < 2 ^ 53) :
    toInt (sub (math.Abs (ofInt b)) (math.Abs (ofInt a))) = |b| - |a| := by
  rw [ofInt_exact ha, ofInt_exact hb]
  unfold math.Abs sub
  have hcast : |(b : ℚ)| - |(a : ℚ)| = ((|b| - |a| : ℤ) : ℚ) := by push_cast; rfl
  rw [hcast]
  have ha0 := abs_nonneg a
  have hb0 := abs_nonneg b
  rw [round_of_representable (representable_intCast _)]
  · apply toInt_intCast <;> omega
  · rw [abs_lt]; constructor <;> omega

end Float64

/-- A completed interval adds the same amount whatever the clock reads. -/
theorem entryMs_completed_clock (now now' : ℤ) (e : Entry) (h : e.End.isSome = true) :
    entryMs now e = entryMs now' e := by
  obtain ⟨start, end'⟩ := e
  cases end' with
  | none => simp at h
  | some x => rfl

/-- A completed interval with decimal strings below `2^53` adds `|end| - |start|`. -/
theorem entryMs_completedDecimal (now : ℤ) (e : Entry) (h : completedDecimal e = true) :
    entryMs now e = intervalMs e := by
  obtain ⟨start, end'⟩ := e
  cases end' with
  | none => simp [completedDecimal] at h
  | some x =>
    simp only [completedDecimal, Bool.and_eq_true, decide_eq_true_eq] at h
    obtain ⟨⟨h1, h2⟩, h3, h4⟩ := h
    have a1 : |decimalValue start| < 2 ^ 63 := lt_trans h2 (by norm_num)
    have a2 : |decimalValue x| < 2 ^ 63 := lt_trans h4 (by norm_num)
    unfold entryMs intervalMs
    simp only [Atoi_decimal start h1 a1, Atoi_decimal x h3 a2, Option.getD_some]
    exact Float64.absDiff_exact h2 h4

/-- The loop adds up the amounts of the entries modulo `2^64`. -/
theorem sumLoop_eq (clock : ℕ → ℤ) (g : Entry → ℤ) (es : List Entry) (i : ℕ) (d : ℤ)
    (hg : ∀ e ∈ es, ∀ now, entryMs now e = g e) :
    sumLoop clock es i (wrap64 d) = wrap64 (d + (es.map g).sum) := by
  induction es generalizing i d with
  | nil => simp [sumLoop]
  | cons e rest ih =>
    unfold sumLoop
    rw [wrap64_add_wrap64, hg e (List.mem_cons_self _ _),
      ih (i + 1) (d + g e) (fun e' he' => hg e' (List.mem_cons_of_mem _ he'))]
    simp only [List.map_cons, List.sum_cons]
    congr 1
    ring

theorem sumEntries_eq (clock : ℕ → ℤ) (g : Entry → ℤ) (es : List Entry)
    (hg : ∀ e ∈ es, ∀ now, entryMs now e = g e) :
    sumEntries clock es = wrap64 (wrap64 ((es.map g).sum) * 1000000) := by
  unfold sumEntries
  have := sumLoop_eq clock g es 0 0 hg
  rw [wrap64_zero] at this
  rw [this, zero_add]
  rfl

/-- The total of completed intervals with decimal strings below `2^53`. -/
theorem sumEntries_completedDecimal (clock : ℕ → ℤ) (es : List Entry)
    (h : ∀ e ∈ es, completedDecimal e = true) :
    sumEntries clock es = wrap64 (wrap64 ((es.map intervalMs).sum) * 1000000) :=
  sumEntries_eq clock intervalMs es (fun e he now => entryMs_completedDecimal now e (h e he))

theorem wrap64_ms {ms : ℤ} (h : |ms| ≤ 9223372036854) :
    wrap64 (wrap64 ms * 1000000) = ms * 1000000 := by
  rw [abs_le] at h
  rw [wrap64_of_range (x := ms) (by omega) (by omega)]
  apply wrap64_of_range <;> omega

/-! ## Claims about `sumEntries` on completed intervals -/

/-- C1: for every list of completed intervals whose start and end strings are
decimal integers of magnitude below `2^53` and whose summed total has a
magnitude of at most 9,223,372,036,854 ms, `sumEntries` returns exactly the
sum over the entries of `|end| - |start|` milliseconds, for every value of the
clock. Each such entry adds `|end| - |start|`, a negative amount when
`|end| < |start|`; the empty list gives zero and the single entry
`{start 0, end 3600000}` gives exactly one hour. -/
theorem C1_sumEntries_completed :
    (∀ (clock : ℕ → ℤ) (entries : List Entry),
      (∀ e ∈ entries, completedDecimal e = true) →
      |(entries.map intervalMs).sum| ≤ 9223372036854 →
      sumEntries clock entries = (entries.map intervalMs).sum * time.Millisecond) ∧
    (∀ (now : ℤ) (e : Entry), completedDecimal e = true →
      entryMs now e = |decimalValue (e.End.getD "")| - |decimalValue e.Start| ∧
      (|decimalValue (e.End.getD "")| < |decimalValue e.Start| → entryMs now e < 0)) ∧
    (∀ clock : ℕ → ℤ, sumEntries clock [] = 0) ∧
    (∀ clock : ℕ → ℤ,
      sumEntries clock [⟨"0", some "3600000"⟩] = 60 * 60 * 1000000000) := by
  refine ⟨?_, ?_, ?_, ?_⟩
  · intro clock entries hall hsum
    rw [sumEntries_completedDecimal clock entries hall, wrap64_ms hsum]
    rfl
  · intro now e he
    have h := entryMs_completedDecimal now e he
    unfold intervalMs at h
    refine ⟨h, fun hlt => ?_⟩
    rw [h]
    omega
  · intro clock
    show wrap64 (0 * time.Millisecond) = 0
    decide
  · intro clock
    rw [sumEntries_completedDecimal clock _ (by decide)]
    decide

/-- C1 at the two entries `{0, 1000}` and `{7000, 5000}`: the total is
`1000 - 2000` milliseconds. -/
theorem C1_sumEntries_completed_witness :
    (∀ e ∈ [(⟨"0", some "1000"⟩ : Entry), ⟨"7000", some "5000"⟩],
      completedDecimal e = true) ∧
    |([(⟨"0", some "1000"⟩ : Entry), ⟨"7000", some "5000"⟩].map intervalMs).sum|
      ≤ 9223372036854 ∧
    sumEntries (fun _ => 0) [⟨"0", some "1000"⟩, ⟨"7000", some "5000"⟩] =
      ([(⟨"0", some "1000"⟩ : Entry), ⟨"7000", some "5000"⟩].map intervalMs).sum *
        time.Millisecond :=
  ⟨by decide, by decide,
    C1_sumEntries_completed.1 (fun _ => 0) [⟨"0", some "1000"⟩, ⟨"7000", some "5000"⟩]
      (by decide) (by decide)⟩

/-- C9: for every list of completed intervals and every permutation of that
list, `sumEntries` returns the same total, whatever the clock reads; the total
of `[{0,1000},{2000,5000}]` and of `[{2000,5000},{0,1000}]` is 4000 ms. -/
theorem C9_sumEntries_perm :
    (∀ (clock clock' : ℕ → ℤ) (l₁ l₂ : List Entry),
      (∀ e ∈ l₁, e.End.isSome = true) → l₁.Perm l₂ →
      sumEntries clock l₁ = sumEntries clock' l₂) ∧
    (∀ clock : ℕ → ℤ,
      sumEntries clock [⟨"0", some "1000"⟩, ⟨"2000", some "5000"⟩] =
        4000 * time.Millisecond ∧
      sumEntries clock [⟨"2000", some "5000"⟩, ⟨"0", some "1000"⟩] =
        4000 * time.Millisecond) := by
  constructor
  · intro clock clock' l₁ l₂ hc hp
    have h1 : ∀ e ∈ l₁, ∀ now, entryMs now e = entryMs 0 e :=
      fun e he now => entryMs_completed_clock now 0 e (hc e he)
    have h2 : ∀ e ∈ l₂, ∀ now, entryMs now e = entryMs 0 e :=
      fun e he now => entryMs_completed_clock now 0 e (hc e (hp.mem_iff.mpr he))
    rw [sumEntries_eq clock (entryMs 0) l₁ h1, sumEntries_eq clock' (entryMs 0) l₂ h2,
      (hp.map (entryMs 0)).sum_eq]
  · intro clock
    constructor
    · rw [sumEntries_completedDecimal clock _ (by decide)]
      decide
    · rw [sumEntries_completedDecimal clock _ (by decide)]
      decide

/-- C9 at the list `[{0,1000},{2000,5000}]` and its reversal. -/
theorem C9_sumEntries_perm_witness :
    (∀ e ∈ [(⟨"0", some "1000"⟩ : Entry), ⟨"2000", some "5000"⟩], e.End.isSome = true) ∧
    [(⟨"0", some "1000"⟩ : Entry), ⟨"2000", some "5000"⟩].Perm
      [⟨"2000", some "5000"⟩, ⟨"0", some "1000"⟩] ∧
    sumEntries (fun _ => 0) [⟨"0", some "1000"⟩, ⟨"2000", some "5000"⟩] =
      sumEntries (fun i => 1000000000 * i) [⟨"2000", some "5000"⟩, ⟨"0", some "1000"⟩] :=
  ⟨by decide, List.Perm.swap _ _ _,
    C9_sumEntries_perm.1 (fun _ => 0) (fun i => 1000000000 * i) _ _ (by decide)
      (List.Perm.swap _ _ _)⟩

/-- C10: with `time.Duration` a signed 64-bit integer, `sumEntries` returns a
negative duration on six completed entries `{start "0", end "1800000000000"}`,
each with `0 ≤ start ≤ end < 2^53`; whenever the millisecond sum exceeds
9,223,372,036,854 the multiplication by `time.Millisecond` wraps around. -/
theorem C10_sumEntries_wraps :
    (∀ e ∈ List.replicate 6 (⟨"0", some "1800000000000"⟩ : Entry),
      completedDecimal e = true ∧ 0 ≤ decimalValue e.Start ∧
      decimalValue e.Start ≤ decimalValue (e.End.getD "") ∧
      decimalValue (e.End.getD "") < 2 ^ 53) ∧
    (∀ clock : ℕ → ℤ,
      sumEntries clock (List.replicate 6 ⟨"0", some "1800000000000"⟩) =
        -7646744073709551616 ∧
      sumEntries clock (List.replicate 6 ⟨"0", some "1800000000000"⟩) < 0) ∧
    (∀ ms : ℤ, 9223372036854 < ms → ms < 2 ^ 63 →
      wrap64 (wrap64 ms * time.Millisecond) ≠ ms * time.Millisecond) := by
  refine ⟨by decide, ?_, ?_⟩
  · intro clock
    have h : sumEntries clock (List.replicate 6 ⟨"0", some "1800000000000"⟩) =
        -7646744073709551616 := by
      rw [sumEntries_completedDecimal clock _ (by decide)]
      decide
    rw [h]
    exact ⟨rfl, by decide⟩
  · intro ms h1 h2 h
    have hr := (wrap64_range (wrap64 ms * time.Millisecond)).2
    rw [h] at hr
    unfold time.Millisecond at hr
    omega

/-- C10 at a millisecond sum of 10,800,000,000,000. -/
theorem C10_sumEntries_wraps_witness :
    (9223372036854 : ℤ) < 10800000000000 ∧ (10800000000000 : ℤ) < 2 ^ 63 ∧
    wrap64 (wrap64 10800000000000 * time.Millisecond) ≠
      10800000000000 * time.Millisecond :=
  ⟨by decide, by decide, C10_sumEntries_wraps.2.2 10800000000000 (by decide) (by decide)⟩

/-! ## Non-numeric strings -/

theorem isDigit_false_of_class {c : Char}
    (h : (c.isAlpha || c == ' ' || c == '.' || c == '_') = true) :
    c.isDigit = false ∧ c ≠ '-' ∧ c ≠ '+' := by
  simp only [Bool.or_eq_true, beq_iff_eq] at h
  rcases h with ((h | h) | h) | h
  · refine ⟨?_, ?_, ?_⟩
    · cases hd : c.isDigit with
      | false => rfl
      | true =>
        exfalso
        simp only [Char.isDigit, Bool.and_eq_true, decide_eq_true_eq] at hd
        simp only [Char.isAlpha, Char.isUpper, Char.isLower, Bool.or_eq_true,
          Bool.and_eq_true, decide_eq_true_eq] at h
        have h57 : c.val.toNat ≤ 57 := by
          have := hd.2
          rw [UInt32.le_def] at this
          exact this
        rcases h with h | h
        · have : 65 ≤ c.val.toNat := by
            have := h.1
            rw [ge_iff_le, UInt32.le_def] at this
            exact this
          omega
        · have : 97 ≤ c.val.toNat := by
            have := h.1
            rw [ge_iff_le, UInt32.le_def] at this
            exact this
          omega
    · rintro rfl
      exact absurd h (by decide)
    · rintro rfl
      exact absurd h (by decide)
  · subst h
    exact ⟨by decide, by decide, by decide⟩
  · subst h
    exact ⟨by decide, by decide, by decide⟩
  · subst h
    exact ⟨by decide, by decide, by decide⟩

namespace strconv

theorem parseUintLoop_bad (l : List Char) (n : ℕ) (hbad : ∃ c ∈ l, c.isDigit = false)
    (hv : digitsFrom n (l.takeWhile Char.isDigit) < 2 ^ 64) :
    parseUintLoop l n = (0, some NumError.syn) := by
  induction l generalizing n with
  | nil => simp at hbad
  | cons c cs ih =>
    unfold parseUintLoop
    cases hc : c.isDigit with
    | false => simp
    | true =>
      have hbad' : ∃ x ∈ cs, x.isDigit = false := by
        obtain ⟨x, hx, hxd⟩ := hbad
        rcases List.mem_cons.mp hx with rfl | hx'
        · rw [hc] at hxd
          exact absurd hxd (by simp)
        · exact ⟨x, hx', hxd⟩
      rw [List.takeWhile_cons, hc] at hv
      simp only [if_true, digitsFrom_cons] at hv
      have hle := le_digitsFrom (n * 10 + (c.toNat - 48)) (cs.takeWhile Char.isDigit)
      have hn : n * 10 + (c.toNat - 48) < 2 ^ 64 := lt_of_le_of_lt hle hv
      simp only [Bool.not_true, Bool.false_eq_true, if_false, cutoff, maxUint64]
      rw [if_neg (by omega)]
      have e1 : n * 10 % 2 ^ 64 = n * 10 := Nat.mod_eq_of_lt (by omega)
      have e2 : (n * 10 + (c.toNat - 48)) % 2 ^ 64 = n * 10 + (c.toNat - 48) :=
        Nat.mod_eq_of_lt hn
      simp only [e1, e2]
      rw [if_neg (by omega)]
      exact ih _ hbad' hv

theorem atoiLoop_bad (l : List Char) (n : ℤ) (hbad : ∃ c ∈ l, c.isDigit = false) :
    atoiLoop l n = none := by
  induction l generalizing n with
  | nil => simp at hbad
  | cons c cs ih =>
    unfold atoiLoop
    cases hc : c.isDigit with
    | false => simp
    | true =>
      have hbad' : ∃ x ∈ cs, x.isDigit = false := by
        obtain ⟨x, hx, hxd⟩ := hbad
        rcases List.mem_cons.mp hx with rfl | hx'
        · rw [hc] at hxd
          exact absurd hxd (by simp)
        · exact ⟨x, hx', hxd⟩
      simp only [Bool.not_true, Bool.false_eq_true, if_false]
      exact ih _ hbad'

theorem ParseInt_bad (c : Char) (cs body : List Char)
    (hb : (if c = '-' ∨ c = '+' then cs else c :: cs) = body)
    (hbad : ∃ x ∈ body, x.isDigit = false)
    (hv : digitsValue (body.takeWhile Char.isDigit) < 2 ^ 64) :
    ParseInt (c :: cs) = (0, some NumError.syn) := by
  have hbody : (if c = '+' ∨ c = '-' then cs else c :: cs) = body := by
    rw [← hb]
    by_cases h1 : c = '-' <;> by_cases h2 : c = '+' <;> simp [h1, h2]
  have hne : body ≠ [] := by
    rintro rfl
    simp at hbad
  have hu : ParseUint body = (0, some NumError.syn) := by
    unfold ParseUint
    rw [if_neg hne]
    exact parseUintLoop_bad body 0 hbad hv
  unfold ParseInt
  simp only [hbody, hu, if_true]

theorem Atoi_bad (s : String) (c : Char) (cs body : List Char) (hs : s.data = c :: cs)
    (hb : (if c = '-' ∨ c = '+' then cs else c :: cs) = body)
    (hbad : ∃ x ∈ body, x.isDigit = false)
    (hv : digitsValue (body.takeWhile Char.isDigit) < 2 ^ 64) :
    Atoi s = (0, some NumError.syn) := by
  unfold Atoi
  simp only
  by_cases hfast : 0 < s.utf8ByteSize ∧ s.utf8ByteSize < 19
  · rw [if_pos hfast, hs]
    simp only [hb]
    have hne : body ≠ [] := by
      rintro rfl
      simp at hbad
    rw [if_neg hne, atoiLoop_bad body 0 hbad]
  · rw [if_neg hfast, hs]
    exact ParseInt_bad c cs body hb hbad hv

end strconv

/-- A non-numeric string whose leading digit run stays below `2^64` is parsed
as zero, with a syntax error. -/
theorem Atoi_nonNumeric (s : String) (hs : nonNumeric s = true)
    (hv : digitsValue (leadingDigits s) < 2 ^ 64) :
    strconv.Atoi s = (0, some strconv.NumError.syn) := by
  unfold nonNumeric at hs
  unfold leadingDigits unsignedPart at hv
  rcases hd : s.data with _ | ⟨c, cs⟩
  · have : s = "" := by
      cases s
      simp only at hd
      subst hd
      rfl
    subst this
    decide
  · rw [hd] at hs hv
    simp only [List.isEmpty_cons, Bool.false_or, List.any_eq_true] at hs
    obtain ⟨x, hx, hcls⟩ := hs
    obtain ⟨hxd, hx1, hx2⟩ := isDigit_false_of_class hcls
    simp only at hv
    generalize hb : (if c = '-' ∨ c = '+' then cs else c :: cs) = body at hv
    have hmem : x ∈ body := by
      rw [← hb]
      split_ifs with hsign
      · rcases List.mem_cons.mp hx with rfl | h'
        · rcases hsign with h | h
          · exact absurd h hx1
          · exact absurd h hx2
        · exact h'
      · exact hx
    exact strconv.Atoi_bad s c cs body hd hb ⟨x, hmem, hxd⟩ hv

/-! ## Evaluating a rounding -/

namespace Float64

/-- The rounding of `q` once its exponent `e` and the integer `m` nearest to
its significand `q / 2^e` are known. -/
theorem round_eq_of_near {q : ℚ} (e m : ℤ) (h1 : (2 : ℚ) ^ (e + 52) ≤ |q|)
    (h2 : |q| < (2 : ℚ) ^ (e + 52 + 1)) (h3 : (m : ℚ) - 1 / 2 < q / (2 : ℚ) ^ e)
    (h4 : q / (2 : ℚ) ^ e < (m : ℚ) + 1 / 2) : round q = (m : ℚ) * (2 : ℚ) ^ e := by
  have hpos : (0 : ℚ) < |q| := lt_of_lt_of_le (two_zpow_pos _) h1
  have hq : q ≠ 0 := abs_pos.mp hpos
  have hlog : Int.log 2 |q| = e + 52 := by
    apply le_antisymm
    · have := (Int.lt_zpow_iff_log_lt (b := 2) (by norm_num) hpos).mp
        (by simpa using h2)
      omega
    · exact (Int.zpow_le_iff_le_log (b := 2) (by norm_num) hpos).mp (by simpa using h1)
  rw [round_of_ne_zero hq, hlog]
  have : e + 52 - 52 = e := by ring
  rw [this, roundHalfEven_eq_of_near h3 h4]

end Float64

/-! ## Claims about an ongoing interval and about non-numeric strings -/

theorem sumEntries_singleton (clock : ℕ → ℤ) (e : Entry) :
    sumEntries clock [e] = wrap64 (wrap64 (entryMs (clock 0) e) * 1000000) := by
  unfold sumEntries sumLoop sumLoop
  rw [zero_add]
  rfl

/-- An ongoing interval with a decimal start adds `|1000 * seconds| - |start|`. -/
theorem entryMs_ongoing (now : ℤ) (s : String) (hs : isDecimal s = true)
    (hv : |decimalValue s| < 2 ^ 53) (hn : |time.Unix now * 1000| < 2 ^ 53) :
    entryMs now ⟨s, none⟩ = |time.Unix now * 1000| - |decimalValue s| := by
  have a1 : |decimalValue s| < 2 ^ 63 := lt_trans hv (by norm_num)
  unfold entryMs
  simp only [Atoi_decimal s hs a1]
  rw [abs_lt] at hn
  rw [wrap64_of_range (by omega) (by omega)]
  exact Float64.absDiff_exact hv (abs_lt.mpr hn)

/-- C2, counterexample: at the instant 1,700,000,000,123 ms after the epoch
the interval that started 90,000 ms earlier adds 89,877 ms, not the
`|now_ms| - |start|` = 90,000 ms of the claim, and the total is not 90,000 ms. -/
theorem C2_counterexample :
    decimalValue "1699999910123" = nowMs 1700000000123000000 - 90000 ∧
    entryMs 1700000000123000000 ⟨"1699999910123", none⟩ = 89877 ∧
    entryMs 1700000000123000000 ⟨"1699999910123", none⟩ ≠
      |nowMs 1700000000123000000| - |decimalValue "1699999910123"| ∧
    sumEntries (fun _ => 1700000000123000000) [⟨"1699999910123", none⟩] ≠
      90000 * time.Millisecond := by
  have h : entryMs 1700000000123000000 ⟨"1699999910123", none⟩ = 89877 := by
    rw [entryMs_ongoing _ _ (by decide) (by decide) (by decide)]
    decide
  refine ⟨by decide, h, ?_, ?_⟩
  · rw [h]
    decide
  · rw [sumEntries_singleton, h]
    decide

/-- C2, amended: for every interval with no end timestamp and a decimal start
`s`, the loop of `sumEntries` at clock time `t` uses as the end 1000 times the
whole seconds since the epoch (the current time in milliseconds cut down to a
whole second), so the interval adds `|1000 * seconds(t)| - |s|` milliseconds
(magnitudes below `2^53`); for a single ongoing interval with
`s = 1000 * seconds(t) - 90000 ≥ 0` the total is 90,000 ms. -/
theorem C2_ongoing_uses_whole_seconds (clock : ℕ → ℤ) (s : String)
    (hs : isDecimal s = true) (hv : |decimalValue s| < 2 ^ 53)
    (hn : |time.Unix (clock 0) * 1000| < 2 ^ 53) :
    entryMs (clock 0) ⟨s, none⟩ = |time.Unix (clock 0) * 1000| - |decimalValue s| ∧
    (0 ≤ decimalValue s → decimalValue s = time.Unix (clock 0) * 1000 - 90000 →
      sumEntries clock [⟨s, none⟩] = 90000 * time.Millisecond) := by
  have h := entryMs_ongoing (clock 0) s hs hv hn
  refine ⟨h, fun h0 heq => ?_⟩
  rw [sumEntries_singleton, h]
  have e : |time.Unix (clock 0) * 1000| - |decimalValue s| = 90000 := by
    rw [abs_of_nonneg h0, abs_of_nonneg (by omega)]
    omega
  rw [e]
  decide

/-- C2 amended, at the instant 1,700,000,000,123 ms and the start
1,699,999,910,000. -/
theorem C2_ongoing_uses_whole_seconds_witness :
    isDecimal "1699999910000" = true ∧ |decimalValue "1699999910000"| < 2 ^ 53 ∧
    |time.Unix 1700000000123000000 * 1000| < 2 ^ 53 ∧
    entryMs 1700000000123000000 ⟨"1699999910000", none⟩ =
      |time.Unix 1700000000123000000 * 1000| - |decimalValue "1699999910000"| ∧
    (0 ≤ decimalValue "1699999910000" →
      decimalValue "1699999910000" = time.Unix 1700000000123000000 * 1000 - 90000 →
      sumEntries (fun _ => 1700000000123000000) [⟨"1699999910000", none⟩] =
        90000 * time.Millisecond) :=
  ⟨by decide, by decide, by decide,
    C2_ongoing_uses_whole_seconds (fun _ => 1700000000123000000) "1699999910000"
      (by decide) (by decide) (by decide)⟩

theorem digitsFrom_lt (n : ℕ) (l : List Char) (hd : ∀ c ∈ l, c.isDigit = true) :
    digitsFrom n l + 1 ≤ (n + 1) * 10 ^ l.length := by
  induction l generalizing n with
  | nil => simp [digitsFrom]
  | cons c cs ih =>
    rw [digitsFrom_cons, List.length_cons, pow_succ]
    have h9 := isDigit_toNat (hd c (List.mem_cons_self _ _))
    have := ih (n * 10 + (c.toNat - 48)) (fun x hx => hd x (List.mem_cons_of_mem _ hx))
    calc digitsFrom (n * 10 + (c.toNat - 48)) cs + 1
        ≤ (n * 10 + (c.toNat - 48) + 1) * 10 ^ cs.length := this
      _ ≤ ((n + 1) * 10) * 10 ^ cs.length := Nat.mul_le_mul_right _ (by omega)
      _ = (n + 1) * (10 ^ cs.length * 10) := by ring

theorem leadingDigits_lt (s : String) (h : (leadingDigits s).length ≤ 19) :
    digitsValue (leadingDigits s) < 2 ^ 64 := by
  have hd : ∀ c ∈ leadingDigits s, c.isDigit = true :=
    fun c hc => List.mem_takeWhile_imp hc
  have h1 := digitsFrom_lt 0 (leadingDigits s) hd
  have h2 : 10 ^ (leadingDigits s).length ≤ 10 ^ 19 :=
    Nat.pow_le_pow_right (by norm_num) h
  unfold digitsValue
  have : (10 : ℕ) ^ 19 < 2 ^ 64 := by norm_num
  omega

theorem ofInt_maxInt64 : Float64.ofInt 9223372036854775807 = 9223372036854775808 := by
  unfold Float64.ofInt
  rw [Float64.round_eq_of_near 10 9007199254740992] <;> norm_num [abs_of_pos]

theorem sub_5000_maxInt64 :
    Float64.sub 5000 9223372036854775808 = -9223372036854770688 := by
  unfold Float64.sub
  rw [Float64.round_eq_of_near 10 (-9007199254740987)] <;> norm_num [abs_of_neg]

theorem entryMs_overflow_example (now : ℤ) :
    entryMs now ⟨"99999999999999999999x", some "5000"⟩ = -9223372036854770688 := by
  have hA : (strconv.Atoi "99999999999999999999x").1 = 9223372036854775807 := by decide
  have hB : (strconv.Atoi "5000").1 = 5000 := by decide
  unfold entryMs
  simp only [hA, hB]
  rw [ofInt_maxInt64, Float64.ofInt_exact (by norm_num)]
  unfold math.Abs
  have e1 : |((5000 : ℤ) : ℚ)| = 5000 := by norm_num
  have e2 : |(9223372036854775808 : ℚ)| = 9223372036854775808 := by norm_num
  rw [e1, e2, sub_5000_maxInt64]
  have : (-9223372036854770688 : ℚ) = ((-9223372036854770688 : ℤ) : ℚ) := by norm_num
  rw [this, Float64.toInt_intCast (by norm_num) (by norm_num)]

/-- C7, counterexample: the start string `99999999999999999999x` contains a
letter, yet `Atoi` reports a range error at the twentieth digit, before it
looks at the letter, and returns the largest `int`, not zero. With the end
`5000` the entry totals 5120 ms, not the 5000 ms that a zero start gives. -/
theorem C7_counterexample :
    nonNumeric "99999999999999999999x" = true ∧
    strconv.Atoi "99999999999999999999x" =
      (9223372036854775807, some strconv.NumError.range) ∧
    (strconv.Atoi "99999999999999999999x").1 ≠ 0 ∧
    sumEntries (fun _ => 0) [⟨"99999999999999999999x", some "5000"⟩] =
      5120 * time.Millisecond ∧
    sumEntries (fun _ => 0) [⟨"0", some "5000"⟩] = 5000 * time.Millisecond := by
  refine ⟨by decide, by decide, by decide, ?_, ?_⟩
  · rw [sumEntries_singleton, entryMs_overflow_example]
    decide
  · rw [sumEntries_completedDecimal _ _ (by decide)]
    decide

/-- C7, amended: for every entry whose start string, or whose present end
string, is non-numeric (empty, or containing a letter, a space, a decimal
point or an underscore) and has a leading digit run (after an optional sign)
of value below `2^64`, as every run of at most 19 digits is, `Atoi` gives the
integer zero, so the loop of `sumEntries` adds what it adds for the string
`0` in that place; a single completed entry with start `abc` and end `5000`
totals 5000 ms, and one with start `1000` and end `abc` totals -1000 ms. -/
theorem C7_nonNumeric_parses_to_zero :
    (∀ s : String, nonNumeric s = true → digitsValue (leadingDigits s) < 2 ^ 64 →
      strconv.Atoi s = (0, some strconv.NumError.syn)) ∧
    (∀ s : String, nonNumeric s = true → (leadingDigits s).length ≤ 19 →
      (strconv.Atoi s).1 = 0) ∧
    (∀ (now : ℤ) (s : String) (e : Option String), nonNumeric s = true →
      digitsValue (leadingDigits s) < 2 ^ 64 → entryMs now ⟨s, e⟩ = entryMs now ⟨"0", e⟩) ∧
    (∀ (now : ℤ) (s x : String), nonNumeric x = true →
      digitsValue (leadingDigits x) < 2 ^ 64 →
      entryMs now ⟨s, some x⟩ = entryMs now ⟨s, some "0"⟩) ∧
    (∀ clock : ℕ → ℤ,
      sumEntries clock [⟨"abc", some "5000"⟩] = 5000 * time.Millisecond ∧
      sumEntries clock [⟨"1000", some "abc"⟩] = -1000 * time.Millisecond) := by
  have h0 : strconv.Atoi "0" = (0, none) := by decide
  refine ⟨Atoi_nonNumeric, ?_, ?_, ?_, ?_⟩
  · intro s hs hl
    rw [Atoi_nonNumeric s hs (leadingDigits_lt s hl)]
  · intro now s e hs hv
    unfold entryMs
    simp only [Atoi_nonNumeric s hs hv, h0]
  · intro now s x hx hv
    unfold entryMs
    simp only [Atoi_nonNumeric x hx hv, h0]
  · intro clock
    have e1 : ∀ now, entryMs now ⟨"abc", some "5000"⟩ = entryMs now ⟨"0", some "5000"⟩ := by
      intro now
      unfold entryMs
      simp only [Atoi_nonNumeric "abc" (by decide) (by decide), h0]
    have e2 : ∀ now, entryMs now ⟨"1000", some "abc"⟩ = entryMs now ⟨"1000", some "0"⟩ := by
      intro now
      unfold entryMs
      simp only [Atoi_nonNumeric "abc" (by decide) (by decide), h0]
    constructor
    · rw [sumEntries_singleton, e1, entryMs_completedDecimal _ _ (by decide)]
      decide
    · rw [sumEntries_singleton, e2, entryMs_completedDecimal _ _ (by decide)]
      decide

/-- C7 amended, at the start string `12 3`. -/
theorem C7_nonNumeric_parses_to_zero_witness :
    nonNumeric "12 3" = true ∧ digitsValue (leadingDigits "12 3") < 2 ^ 64 ∧
    strconv.Atoi "12 3" = (0, some strconv.NumError.syn) :=
  ⟨by decide, by decide, C7_nonNumeric_parses_to_zero.1 "12 3" (by decide) (by decide)⟩

/-! ## `Hours` and `Minutes` -/

/-- Go's truncated division and remainder by a positive divisor. -/
theorem tdiv_tmod_spec (d C : ℤ) (hC : 0 < C) :
    d = C * Int.tdiv d C + Int.tmod d C ∧
    (0 ≤ d → 0 ≤ Int.tmod d C ∧ Int.tmod d C < C ∧ 0 ≤ Int.tdiv d C) ∧
    (d ≤ 0 → -C < Int.tmod d C ∧ Int.tmod d C ≤ 0 ∧ Int.tdiv d C ≤ 0) := by
  refine ⟨(Int.tdiv_add_tmod d C).symm, fun h => ?_, fun h => ?_⟩
  · exact ⟨Int.tmod_nonneg C h, Int.tmod_lt_of_pos d hC, Int.tdiv_nonneg h hC.le⟩
  · have h' : 0 ≤ -d := by omega
    have e1 : Int.tdiv d C = -Int.tdiv (-d) C := by
      rw [Int.neg_tdiv, neg_neg]
    have e2 : Int.tmod d C = -Int.tmod (-d) C := by
      rw [Int.tmod_def, Int.tmod_def, e1]
      ring
    have b1 := Int.tmod_nonneg C h'
    have b2 := Int.tmod_lt_of_pos (-d) hC
    have b3 := Int.tdiv_nonneg h' hC.le
    omega

namespace Float64

theorem representable_dyadic (q n : ℤ) (j : ℕ) (h : |q * 2 ^ j + n| < 2 ^ 53) :
    Representable ((q : ℚ) + (n : ℚ) / (2 : ℚ) ^ j) := by
  refine ⟨q * 2 ^ j + n, -(j : ℤ), h, ?_⟩
  push_cast
  rw [zpow_neg, zpow_natCast]
  field_simp

/-- Bounds of the expression `float64(q) + float64(r) / C` of `Hours` and
`Minutes`, from bounds `nlo / 2^j ≤ r / C ≤ nhi / 2^j` of the fraction. -/
theorem split_bounds (q r C : ℤ) (j : ℕ) (nlo nhi : ℤ) (hC : 0 < C)
    (hr : |r| < 2 ^ 53) (hq : |q| < 2 ^ 53) (hlo' : |nlo| < 2 ^ 53) (hhi' : |nhi| < 2 ^ 53)
    (hlo : |q * 2 ^ j + nlo| < 2 ^ 53) (hhi : |q * 2 ^ j + nhi| < 2 ^ 53)
    (h1 : nlo * C ≤ r * 2 ^ j) (h2 : r * 2 ^ j ≤ nhi * C) :
    (q : ℚ) + (nlo : ℚ) / (2 : ℚ) ^ j ≤ add (ofInt q) (div (ofInt r) (C : ℚ)) ∧
      add (ofInt q) (div (ofInt r) (C : ℚ)) ≤ (q : ℚ) + (nhi : ℚ) / (2 : ℚ) ^ j := by
  rw [ofInt_exact hq, ofInt_exact hr]
  unfold add div
  have hCq : (0 : ℚ) < (C : ℚ) := by exact_mod_cast hC
  have h2j : (0 : ℚ) < (2 : ℚ) ^ j := by positivity
  have f1 : (nlo : ℚ) / (2 : ℚ) ^ j ≤ (r : ℚ) / (C : ℚ) := by
    rw [div_le_div_iff₀ h2j hCq]
    exact_mod_cast h1
  have f2 : (r : ℚ) / (C : ℚ) ≤ (nhi : ℚ) / (2 : ℚ) ^ j := by
    rw [div_le_div_iff₀ hCq h2j]
    exact_mod_cast h2
  have r1 : Representable ((nlo : ℚ) / (2 : ℚ) ^ j) := by
    have := representable_dyadic 0 nlo j (by simpa using hlo')
    simpa using this
  have r2 : Representable ((nhi : ℚ) / (2 : ℚ) ^ j) := by
    have := representable_dyadic 0 nhi j (by simpa using hhi')
    simpa using this
  have hb := round_between r1 r2 f1 f2
  exact round_between (representable_dyadic q nlo j hlo) (representable_dyadic q nhi j hhi)
    (by linarith [hb.1]) (by linarith [hb.2])

end Float64

theorem hoursConst : (60 * 60 * 1000000000 : ℚ) = ((3600000000000 : ℤ) : ℚ) := by norm_num

theorem minutesConst : (60 * 1000000000 : ℚ) = ((60000000000 : ℤ) : ℚ) := by norm_num

/-- For a total of a whole number `ms` of milliseconds that did not wrap,
`Hours` lies between the floored hours and the next integer. -/
theorem Hours_ms_bounds (ms : ℤ) (h : |ms| ≤ 9223372036854) :
    ((ms / 3600000 : ℤ) : ℚ) ≤ time.Hours (ms * 1000000) ∧
      time.Hours (ms * 1000000) ≤ ((ms / 3600000 : ℤ) : ℚ) + (4194303 : ℚ) / (2 : ℚ) ^ 22 := by
  rw [abs_le] at h
  obtain ⟨hd, hpos, hneg⟩ := tdiv_tmod_spec (ms * 1000000) 3600000000000 (by norm_num)
  unfold time.Hours
  simp only [hoursConst]
  generalize Int.tdiv (ms * 1000000) 3600000000000 = q at hd hpos hneg ⊢
  generalize Int.tmod (ms * 1000000) 3600000000000 = r at hd hpos hneg ⊢
  by_cases hr : 0 ≤ r
  · have hrC : r < 3600000000000 := by
      rcases le_total 0 (ms * 1000000) with h0 | h0
      · exact (hpos h0).2.1
      · have := (hneg h0).2.1
        omega
    have hQ : ms / 3600000 = q := by omega
    rw [hQ]
    have := Float64.split_bounds q r 3600000000000 22 0 4194303 (by norm_num)
      (by rw [abs_lt]; constructor <;> omega) (by rw [abs_lt]; constructor <;> omega)
      (by norm_num) (by norm_num)
      (by rw [abs_lt]; constructor <;> omega) (by rw [abs_lt]; constructor <;> omega)
      (by omega) (by omega)
    simpa using this
  · push_neg at hr
    have hd0 : ms * 1000000 ≤ 0 := by
      by_contra hcon
      push_neg at hcon
      have := (hpos hcon.le).1
      omega
    have hrC := (hneg hd0).1
    have hQ : ms / 3600000 = q - 1 := by omega
    rw [hQ]
    have := Float64.split_bounds q r 3600000000000 22 (-4194303) (-1) (by norm_num)
      (by rw [abs_lt]; constructor <;> omega) (by rw [abs_lt]; constructor <;> omega)
      (by norm_num) (by norm_num)
      (by rw [abs_lt]; constructor <;> omega) (by rw [abs_lt]; constructor <;> omega)
      (by omega) (by omega)
    push_cast at this ⊢
    constructor
    · have e := this.1
      norm_num at e ⊢
      linarith
    · have e := this.2
      norm_num at e ⊢
      linarith

/-- The same for `Minutes`. -/
theorem Minutes_ms_bounds (ms : ℤ) (h : |ms| ≤ 9223372036854) :
    ((ms / 60000 : ℤ) : ℚ) ≤ time.Minutes (ms * 1000000) ∧
      time.Minutes (ms * 1000000) ≤ ((ms / 60000 : ℤ) : ℚ) + (4194303 : ℚ) / (2 : ℚ) ^ 22 := by
  rw [abs_le] at h
  obtain ⟨hd, hpos, hneg⟩ := tdiv_tmod_spec (ms * 1000000) 60000000000 (by norm_num)
  unfold time.Minutes
  simp only [minutesConst]
  generalize Int.tdiv (ms * 1000000) 60000000000 = q at hd hpos hneg ⊢
  generalize Int.tmod (ms * 1000000) 60000000000 = r at hd hpos hneg ⊢
  by_cases hr : 0 ≤ r
  · have hrC : r < 60000000000 := by
      rcases le_total 0 (ms * 1000000) with h0 | h0
      · exact (hpos h0).2.1
      · have := (hneg h0).2.1
        omega
    have hQ : ms / 60000 = q := by omega
    rw [hQ]
    have := Float64.split_bounds q r 60000000000 22 0 4194303 (by norm_num)
      (by rw [abs_lt]; constructor <;> omega) (by rw [abs_lt]; constructor <;> omega)
      (by norm_num) (by norm_num)
      (by rw [abs_lt]; constructor <;> omega) (by rw [abs_lt]; constructor <;> omega)
      (by omega) (by omega)
    simpa using this
  · push_neg at hr
    have hd0 : ms * 1000000 ≤ 0 := by
      by_contra hcon
      push_neg at hcon
      have := (hpos hcon.le).1
      omega
    have hrC := (hneg hd0).1
    have hQ : ms / 60000 = q - 1 := by omega
    rw [hQ]
    have := Float64.split_bounds q r 60000000000 22 (-4194303) (-1) (by norm_num)
      (by rw [abs_lt]; constructor <;> omega) (by rw [abs_lt]; constructor <;> omega)
      (by norm_num) (by norm_num)
      (by rw [abs_lt]; constructor <;> omega) (by rw [abs_lt]; constructor <;> omega)
      (by omega) (by omega)
    push_cast at this ⊢
    constructor
    · have e := this.1
      norm_num at e ⊢
      linarith
    · have e := this.2
      norm_num at e ⊢
      linarith

/-- The hours of `main` for a total of `ms` whole milliseconds that did not
wrap: the floor of `ms / 3600000`. -/
theorem hoursOf_ms (ms : ℤ) (h : |ms| ≤ 9223372036854) :
    hoursOf (ms * 1000000) = ms / 3600000 := by
  obtain ⟨h1, h2⟩ := Hours_ms_bounds ms h
  unfold hoursOf math.Floor
  rw [Int.floor_eq_iff]
  refine ⟨h1, lt_of_le_of_lt h2 ?_⟩
  norm_num

/-- The minutes of `main` for a total of `ms` whole milliseconds that did not
wrap: the floored minutes less sixty times the floored hours. -/
theorem minutesOf_ms (ms : ℤ) (h : |ms| ≤ 9223372036854) :
    minutesOf (ms * 1000000) = ms / 60000 - 60 * (ms / 3600000) := by
  obtain ⟨h1, h2⟩ := Minutes_ms_bounds ms h
  have hb := abs_le.mp h
  unfold minutesOf
  rw [hoursOf_ms ms h]
  have hmul : Float64.mul ((ms / 3600000 : ℤ) : ℚ) 60 = ((60 * (ms / 3600000) : ℤ) : ℚ) := by
    unfold Float64.mul
    have e : ((ms / 3600000 : ℤ) : ℚ) * 60 = ((60 * (ms / 3600000) : ℤ) : ℚ) := by
      push_cast; ring
    rw [e]
    exact Float64.round_of_representable
      (Float64.representable_intCast (by rw [abs_lt]; constructor <;> omega))
  rw [hmul]
  set D : ℤ := ms / 60000 - 60 * (ms / 3600000) with hD
  have hD0 : 0 ≤ D ∧ D ≤ 59 := by omega
  have r1 : Float64.Representable ((D : ℚ) + ((0 : ℤ) : ℚ) / (2 : ℚ) ^ 22) :=
    Float64.representable_dyadic D 0 22 (by rw [abs_lt]; constructor <;> omega)
  have r2 : Float64.Representable ((D : ℚ) + ((4194303 : ℤ) : ℚ) / (2 : ℚ) ^ 22) :=
    Float64.representable_dyadic D 4194303 22 (by rw [abs_lt]; constructor <;> omega)
  have hx1 : (D : ℚ) + ((0 : ℤ) : ℚ) / (2 : ℚ) ^ 22 ≤
      time.Minutes (ms * 1000000) - ((60 * (ms / 3600000) : ℤ) : ℚ) := by
    rw [hD]; push_cast at h1 ⊢; linarith
  have hx2 : time.Minutes (ms * 1000000) - ((60 * (ms / 3600000) : ℤ) : ℚ) ≤
      (D : ℚ) + ((4194303 : ℤ) : ℚ) / (2 : ℚ) ^ 22 := by
    rw [hD]; push_cast at h2 ⊢; linarith
  obtain ⟨b1, b2⟩ := Float64.round_between r1 r2 hx1 hx2
  unfold math.Floor Float64.sub
  rw [Int.floor_eq_iff]
  constructor
  · simpa using b1
  · refine lt_of_le_of_lt b2 ?_
    norm_num

/-- For every 64-bit total the floored hours are at least 8 exactly when the
total is at least eight hours. -/
theorem hoursOf_ge_eight_iff (d : ℤ) (h1 : -2 ^ 63 ≤ d) (h2 : d < 2 ^ 63) :
    8 ≤ hoursOf d ↔ 28800000000000 ≤ d := by
  obtain ⟨hd, hpos, hneg⟩ := tdiv_tmod_spec d 3600000000000 (by norm_num)
  unfold hoursOf math.Floor time.Hours
  simp only [hoursConst]
  generalize Int.tdiv d 3600000000000 = q at hd hpos hneg ⊢
  generalize Int.tmod d 3600000000000 = r at hd hpos hneg ⊢
  rw [Int.le_floor]
  rcases lt_or_le d 0 with hneg0 | hnn
  · obtain ⟨a1, a2, a3⟩ := hneg hneg0.le
    have := (Float64.split_bounds q r 3600000000000 0 (-1) 0 (by norm_num)
      (by rw [abs_lt]; constructor <;> omega) (by rw [abs_lt]; constructor <;> omega)
      (by norm_num) (by norm_num)
      (by rw [abs_lt]; constructor <;> omega) (by rw [abs_lt]; constructor <;> omega)
      (by omega) (by omega)).2
    have hq0 : (q : ℚ) ≤ 0 := by exact_mod_cast a3
    constructor
    · intro h8
      exfalso
      norm_num at this h8
      linarith
    · intro h8
      omega
  · obtain ⟨a1, a2, a3⟩ := hpos hnn
    rcases lt_or_le d 28800000000000 with hlt | hge
    · have hq7 : q ≤ 7 := by omega
      have := (Float64.split_bounds q r 3600000000000 42 0 4398046511103 (by norm_num)
        (by rw [abs_lt]; constructor <;> omega) (by rw [abs_lt]; constructor <;> omega)
        (by norm_num) (by norm_num)
        (by rw [abs_lt]; constructor <;> omega) (by rw [abs_lt]; constructor <;> omega)
        (by omega) (by omega)).2
      have hq7' : (q : ℚ) ≤ 7 := by exact_mod_cast hq7
      constructor
      · intro h8
        exfalso
        norm_num at this h8
        linarith
      · intro h8
        omega
    · have hq8 : 8 ≤ q := by omega
      have := (Float64.split_bounds q r 3600000000000 0 0 1 (by norm_num)
        (by rw [abs_lt]; constructor <;> omega) (by rw [abs_lt]; constructor <;> omega)
        (by norm_num) (by norm_num)
        (by rw [abs_lt]; constructor <;> omega) (by rw [abs_lt]; constructor <;> omega)
        (by omega) (by omega)).1
      have hq8' : (8 : ℚ) ≤ (q : ℚ) := by exact_mod_cast hq8
      constructor
      · intro _
        exact hge
      · intro _
        norm_num at this ⊢
        linarith

/-! ## The printed line -/

theorem digitChar_ne_bracket (n : ℕ) : Nat.digitChar n ≠ '[' := by
  by_cases h : n < 16
  · interval_cases n <;> decide
  · unfold Nat.digitChar
    rw [if_neg (by omega), if_neg (by omega), if_neg (by omega), if_neg (by omega),
      if_neg (by omega), if_neg (by omega), if_neg (by omega), if_neg (by omega),
      if_neg (by omega), if_neg (by omega), if_neg (by omega), if_neg (by omega),
      if_neg (by omega), if_neg (by omega), if_neg (by omega), if_neg (by omega)]
    decide

theorem toDigitsCore_ne_bracket (fuel n : ℕ) (acc : List Char)
    (h : ∀ c ∈ acc, c ≠ '[') : ∀ c ∈ Nat.toDigitsCore 10 fuel n acc, c ≠ '[' := by
  induction fuel generalizing n acc with
  | zero => simpa [Nat.toDigitsCore] using h
  | succ f ih =>
    have hacc : ∀ c ∈ Nat.digitChar (n % 10) :: acc, c ≠ '[' := by
      intro c hc
      rcases List.mem_cons.mp hc with rfl | hc'
      · exact digitChar_ne_bracket _
      · exact h c hc'
    unfold Nat.toDigitsCore
    simp only
    split_ifs
    · exact hacc
    · exact ih _ _ hacc

theorem toDigitsCore_length_ge (fuel n : ℕ) (acc : List Char) :
    acc.length ≤ (Nat.toDigitsCore 10 fuel n acc).length := by
  induction fuel generalizing n acc with
  | zero => simp [Nat.toDigitsCore]
  | succ f ih =>
    unfold Nat.toDigitsCore
    simp only
    split_ifs
    · simp
    · have := ih (n / 10) (Nat.digitChar (n % 10) :: acc)
      simp only [List.length_cons] at this
      omega

theorem toDigits_length_pos (n : ℕ) : 1 ≤ (Nat.toDigits 10 n).length := by
  unfold Nat.toDigits Nat.toDigitsCore
  simp only
  split_ifs
  · simp
  · have := toDigitsCore_length_ge n (n / 10) [Nat.digitChar (n % 10)]
    simpa using this

theorem toDigits_ne_bracket (n : ℕ) : ∀ c ∈ Nat.toDigits 10 n, c ≠ '[' :=
  toDigitsCore_ne_bracket _ _ [] (by simp)

/-- The digits dropped as trailing zeros are put back by the padding. -/
theorem rdropWhile_append_zeros (l : List Char) :
    l.rdropWhile (fun c => c == '0') ++
      List.replicate (l.length - (l.rdropWhile (fun c => c == '0')).length) '0' = l := by
  induction l using List.reverseRecOn with
  | nil => simp
  | append_singleton l x ih =>
    by_cases hx : (x == '0') = true
    · rw [List.rdropWhile_concat_pos (fun c => c == '0') l x hx]
      have hle : (l.rdropWhile (fun c => c == '0')).length ≤ l.length :=
        (List.rdropWhile_prefix (fun c => c == '0') l).length_le
      have hlen : (l ++ [x]).length - (l.rdropWhile (fun c => c == '0')).length =
          (l.length - (l.rdropWhile (fun c => c == '0')).length) + 1 := by
        rw [List.length_append, List.length_singleton]
        omega
      have hx' : x = '0' := by simpa using hx
      rw [hlen, List.replicate_succ', ← List.append_assoc, ih, hx']
    · rw [List.rdropWhile_concat_neg (fun c => c == '0') l x hx]
      simp

namespace fmt

theorem expDigits_ne_bracket (e : ℕ) : ∀ c ∈ expDigits e, c ≠ '[' := by
  intro c hc
  unfold expDigits at hc
  split_ifs at hc <;> simp only [List.mem_cons, List.mem_singleton, List.not_mem_nil,
    or_false] at hc
  · rcases hc with rfl | rfl
    · decide
    · exact digitChar_ne_bracket _
  · rcases hc with rfl | rfl <;> exact digitChar_ne_bracket _
  · rcases hc with rfl | rfl | rfl <;> exact digitChar_ne_bracket _

theorem fmtE_ne_bracket (neg : Bool) (d : List Char) (dp prec : ℕ)
    (hd : ∀ c ∈ d, c ≠ '[') : ∀ c ∈ fmtE neg d dp prec, c ≠ '[' := by
  intro c hc
  unfold fmtE at hc
  simp only [List.mem_append, List.mem_cons, List.mem_singleton, List.not_mem_nil,
    or_false] at hc
  rcases hc with (((h | h) | h) | h) | h
  · split_ifs at h
    · simp only [List.mem_singleton] at h
      subst h
      decide
    · simp at h
  · subst h
    cases d with
    | nil => decide
    | cons x xs => exact hd x (List.mem_cons_self _ _)
  · split_ifs at h
    · rcases List.mem_cons.mp h with rfl | h'
      · decide
      · rcases List.mem_append.mp h' with h'' | h''
        · exact hd c (List.mem_of_mem_take (List.mem_of_mem_drop h''))
        · rw [List.eq_of_mem_replicate h'']
          decide
    · simp at h
  · rcases h with rfl | rfl <;> decide
  · exact expDigits_ne_bracket _ c h

theorem fmtF_ne_bracket (neg : Bool) (d : List Char) (dp : ℕ)
    (hd : ∀ c ∈ d, c ≠ '[') : ∀ c ∈ fmtF neg d dp, c ≠ '[' := by
  intro c hc
  unfold fmtF at hc
  simp only [List.mem_append] at hc
  rcases hc with h | h
  · split_ifs at h
    · simp only [List.mem_singleton] at h
      subst h
      decide
    · simp at h
  · split_ifs at h
    · rcases List.mem_append.mp h with h' | h'
      · exact hd c (List.mem_of_mem_take h')
      · rw [List.eq_of_mem_replicate h']
        decide
    · simp only [List.mem_singleton] at h
      subst h
      decide

/-- The text of a number holds no opening bracket. -/
theorem formatFloat_ne_bracket (n : ℤ) : ∀ c ∈ (formatFloat n).data, c ≠ '[' := by
  unfold formatFloat
  simp only
  generalize hdef : (if n.natAbs = 0 then [] else Nat.toDigits 10 n.natAbs) = all
  have hall : ∀ c ∈ all, c ≠ '[' := by
    rw [← hdef]
    split_ifs
    · simp
    · exact toDigits_ne_bracket _
  have hd : ∀ c ∈ all.rdropWhile (fun c => c == '0'), c ≠ '[' :=
    fun c hc => hall c ((List.rdropWhile_prefix _ _).subset hc)
  split_ifs
  · exact fmtE_ne_bracket _ _ _ _ hd
  · exact fmtF_ne_bracket _ _ _ hd

/-- Below one million in magnitude the verb `%v` writes the plain decimal numeral. -/
theorem formatFloat_small (n : ℤ) (h : n.natAbs < 1000000) : formatFloat n = decimal n := by
  unfold formatFloat decimal
  simp only
  by_cases h0 : n.natAbs = 0
  · have : n = 0 := Int.natAbs_eq_zero.mp h0
    subst this
    decide
  · rw [if_neg h0]
    have hlen1 := toDigits_length_pos n.natAbs
    have hlen6 : (Nat.toDigits 10 n.natAbs).length ≤ 6 :=
      Nat.toDigitsCore_length 10 (by norm_num) _ _ 6 (by simpa using h) (by norm_num)
    have hpre : ((Nat.toDigits 10 n.natAbs).rdropWhile (fun c => c == '0')).length ≤
        (Nat.toDigits 10 n.natAbs).length :=
      (List.rdropWhile_prefix (fun c => c == '0') _).length_le
    have hcond : ¬(((Nat.toDigits 10 n.natAbs).length : ℤ) - 1 < -4 ∨
        ((Nat.toDigits 10 n.natAbs).length : ℤ) - 1 ≥ 6) := by omega
    rw [if_neg hcond]
    unfold fmtF
    have hdp : (Nat.toDigits 10 n.natAbs).length > 0 := by omega
    rw [if_pos hdp, Nat.min_eq_left hpre, List.take_length, rdropWhile_append_zeros]
    by_cases hn : n < 0
    · simp only [hn, decide_True, if_true]
      rfl
    · simp only [hn, decide_False, if_false]
      rfl

end fmt

theorem infix_skip {a : Char} {p X Y : List Char} (hX : ∀ c ∈ X, c ≠ a) :
    (a :: p) <:+: X ++ Y ↔ (a :: p) <:+: Y := by
  induction X with
  | nil => simp
  | cons x xs ih =>
    have hx : x ≠ a := hX x (List.mem_cons_self _ _)
    rw [List.cons_append, List.infix_cons_iff, ih (fun c hc => hX c (List.mem_cons_of_mem _ hc))]
    constructor
    · rintro (h | h)
      · exfalso
        obtain ⟨t, ht⟩ := h
        simp only [List.cons_append, List.cons.injEq] at ht
        exact hx ht.1.symm
      · exact h
    · exact fun h => Or.inr h

/-- The characters of the line that `main` prints. -/
theorem main_data (data : List Entry) (currentTask : Option Entry) (clock : ℕ → ℤ) :
    (main data currentTask clock).data =
      ((fmt.formatFloat (hoursOf (sumEntries clock (summedEntries data currentTask)))).data ++
        ':' :: (fmt.formatFloat
          (minutesOf (sumEntries clock (summedEntries data currentTask)))).data) ++
      ((ongoingFlag currentTask).data ++
        ((overtimeFlag (hoursOf (sumEntries clock (summedEntries data currentTask)))).data ++
          ['\n'])) := by
  unfold main
  simp only [String.data_append, List.append_assoc]
  rfl

theorem main_prefix_ne_bracket (h m : ℤ) :
    ∀ c ∈ (fmt.formatFloat h).data ++ ':' :: (fmt.formatFloat m).data, c ≠ '[' := by
  intro c hc
  rcases List.mem_append.mp hc with h1 | h1
  · exact fmt.formatFloat_ne_bracket h c h1
  · rcases List.mem_cons.mp h1 with rfl | h2
    · decide
    · exact fmt.formatFloat_ne_bracket m c h2

theorem flags_marker (currentTask : Option Entry) (H : ℤ) :
    (('[' :: ['!', ']']) <:+:
        (ongoingFlag currentTask).data ++ ((overtimeFlag H).data ++ ['\n']) ↔ 8 ≤ H) ∧
    (('[' :: ['+', ']']) <:+:
        (ongoingFlag currentTask).data ++ ((overtimeFlag H).data ++ ['\n']) ↔
      currentTask.isSome = true) := by
  unfold ongoingFlag overtimeFlag
  cases currentTask with
  | none =>
    by_cases h8 : H ≥ 8
    · rw [if_pos h8]
      exact ⟨iff_of_true (by decide) h8, iff_of_false (by decide) (by simp)⟩
    · rw [if_neg h8]
      exact ⟨iff_of_false (by decide) h8, iff_of_false (by decide) (by simp)⟩
  | some c =>
    rw [if_pos (by simp : (some c).isSome = true)]
    by_cases h8 : H ≥ 8
    · rw [if_pos h8]
      exact ⟨iff_of_true (by decide) h8, iff_of_true (by decide) (by simp)⟩
    · rw [if_neg h8]
      exact ⟨iff_of_false (by decide) h8, iff_of_true (by decide) (by simp)⟩

/-- The line contains `[!]` exactly when the floored hours are at least 8. -/
theorem overtime_marker_iff (data : List Entry) (currentTask : Option Entry)
    (clock : ℕ → ℤ) :
    containsMarker "[!]" (main data currentTask clock) ↔
      8 ≤ hoursOf (sumEntries clock (summedEntries data currentTask)) := by
  unfold containsMarker
  rw [main_data]
  have e : ("[!]" : String).data = '[' :: ['!', ']'] := rfl
  rw [e, infix_skip (main_prefix_ne_bracket _ _)]
  exact (flags_marker currentTask _).1

/-- The line contains `[+]` exactly when the current-entry response holds an entry. -/
theorem ongoing_marker_iff (data : List Entry) (currentTask : Option Entry)
    (clock : ℕ → ℤ) :
    containsMarker "[+]" (main data currentTask clock) ↔ currentTask.isSome = true := by
  unfold containsMarker
  rw [main_data]
  have e : ("[+]" : String).data = '[' :: ['+', ']'] := rfl
  rw [e, infix_skip (main_prefix_ne_bracket _ _)]
  exact (flags_marker currentTask _).2

theorem sumEntries_range (clock : ℕ → ℤ) (es : List Entry) :
    -2 ^ 63 ≤ sumEntries clock es ∧ sumEntries clock es < 2 ^ 63 := by
  unfold sumEntries
  exact wrap64_range _

theorem summedEntries_eq (data : List Entry) (currentTask : Option Entry) :
    summedEntries data currentTask = data ++ currentTask.toList := by
  cases currentTask <;> simp [summedEntries]

/-! ## Claims about the markers and the summed list -/

/-- C3: for every total duration computed by `main`, the overtime marker
`[!]` is part of the printed line if and only if the floored hours are at
least 8, that is if and only if the total is at least 28,800,000 ms; a total
of 7.99 hours (28,764,000 ms) prints no overtime marker and a total of exactly
8 hours prints it. -/
theorem C3_overtime_marker :
    (∀ (data : List Entry) (currentTask : Option Entry) (clock : ℕ → ℤ),
      (containsMarker "[!]" (main data currentTask clock) ↔
        8 ≤ hoursOf (sumEntries clock (summedEntries data currentTask))) ∧
      (8 ≤ hoursOf (sumEntries clock (summedEntries data currentTask)) ↔
        28800000 * time.Millisecond ≤ sumEntries clock (summedEntries data currentTask))) ∧
    (∀ clock : ℕ → ℤ,
      sumEntries clock (summedEntries [⟨"0", some "28764000"⟩] none) =
        28764000 * time.Millisecond ∧
      ¬containsMarker "[!]" (main [⟨"0", some "28764000"⟩] none clock)) ∧
    (∀ clock : ℕ → ℤ,
      sumEntries clock (summedEntries [⟨"0", some "28800000"⟩] none) =
        28800000 * time.Millisecond ∧
      containsMarker "[!]" (main [⟨"0", some "28800000"⟩] none clock)) := by
  have key : ∀ (data : List Entry) (currentTask : Option Entry) (clock : ℕ → ℤ),
      8 ≤ hoursOf (sumEntries clock (summedEntries data currentTask)) ↔
        28800000 * time.Millisecond ≤ sumEntries clock (summedEntries data currentTask) := by
    intro data currentTask clock
    obtain ⟨h1, h2⟩ := sumEntries_range clock (summedEntries data currentTask)
    exact hoursOf_ge_eight_iff _ h1 h2
  refine ⟨fun data currentTask clock => ⟨overtime_marker_iff data currentTask clock,
    key data currentTask clock⟩, ?_, ?_⟩
  · intro clock
    have hs : sumEntries clock (summedEntries [⟨"0", some "28764000"⟩] none) =
        28764000 * time.Millisecond := by
      show sumEntries clock [⟨"0", some "28764000"⟩] = _
      rw [sumEntries_completedDecimal clock _ (by decide)]
      decide
    refine ⟨hs, ?_⟩
    rw [overtime_marker_iff, key, hs]
    decide
  · intro clock
    have hs : sumEntries clock (summedEntries [⟨"0", some "28800000"⟩] none) =
        28800000 * time.Millisecond := by
      show sumEntries clock [⟨"0", some "28800000"⟩] = _
      rw [sumEntries_completedDecimal clock _ (by decide)]
      decide
    refine ⟨hs, ?_⟩
    rw [overtime_marker_iff, key, hs]

/-- C4, counterexample: with the fetched entry `{start 0, end null}` and no
current entry an interval without end is summed and no `[+]` is printed; with
no fetched entry and the current entry `{start 0, end 1000}` no interval
without end is summed and `[+]` is printed. -/
theorem C4_counterexample :
    ((∃ e ∈ summedEntries [⟨"0", none⟩] none, e.End = none) ∧
      ¬containsMarker "[+]" (main [⟨"0", none⟩] none (fun _ => 0))) ∧
    ((∀ e ∈ summedEntries [] (some ⟨"0", some "1000"⟩), e.End ≠ none) ∧
      containsMarker "[+]" (main [] (some ⟨"0", some "1000"⟩) (fun _ => 0))) := by
  refine ⟨⟨by decide, ?_⟩, ⟨by decide, ?_⟩⟩
  · rw [ongoing_marker_iff]
    decide
  · rw [ongoing_marker_iff]
    decide

/-- C4, amended: for every fetched entry list and every current-entry
response, the printed line contains the ongoing marker `[+]` if and only if
the current-entry response holds an entry, whether or not an interval with no
end timestamp is among the intervals that are summed; the marker does not
depend on the total duration (it is also printed when the total is zero). -/
theorem C4_ongoing_marker :
    (∀ (data : List Entry) (currentTask : Option Entry) (clock : ℕ → ℤ),
      containsMarker "[+]" (main data currentTask clock) ↔ currentTask.isSome = true) ∧
    (∀ clock : ℕ → ℤ,
      sumEntries clock (summedEntries [] (some ⟨"0", some "0"⟩)) = 0 ∧
      containsMarker "[+]" (main [] (some ⟨"0", some "0"⟩) clock)) := by
  refine ⟨ongoing_marker_iff, fun clock => ⟨?_, ?_⟩⟩
  · show sumEntries clock [⟨"0", some "0"⟩] = 0
    rw [sumEntries_completedDecimal clock _ (by decide)]
    decide
  · rw [ongoing_marker_iff]
    rfl

/-- C8, counterexample: two fetched entries without end give a summed list
with two intervals whose end is absent; and a fetched entry without end that
is followed by a completed one is not the last element. -/
theorem C8_counterexample :
    (summedEntries [⟨"0", none⟩, ⟨"0", none⟩] none).countP (fun e => e.End.isNone) = 2 ∧
    (⟨"0", none⟩ : Entry) ∈ summedEntries [⟨"0", none⟩, ⟨"5", some "9"⟩] none ∧
    (summedEntries [⟨"0", none⟩, ⟨"5", some "9"⟩] none).getLast? =
      some ⟨"5", some "9"⟩ := by
  decide

/-- C8, amended: the interval list that `main` hands to `sumEntries` is the
fetched entries followed by the current entry when the second response holds
one; when every fetched entry has an end, the list contains at most one
interval whose end is absent, and when it contains one, that interval is the
current entry and the last element, appended after the fetched entries. -/
theorem C8_summedEntries :
    (∀ (data : List Entry) (currentTask : Option Entry),
      summedEntries data currentTask = data ++ currentTask.toList) ∧
    (∀ (data : List Entry) (currentTask : Option Entry),
      (∀ e ∈ data, e.End.isSome = true) →
      (summedEntries data currentTask).countP (fun e => e.End.isNone) ≤ 1 ∧
      ∀ e ∈ summedEntries data currentTask, e.End = none →
        currentTask = some e ∧ (summedEntries data currentTask).getLast? = some e) := by
  refine ⟨summedEntries_eq, fun data currentTask hdata => ?_⟩
  have hcount : data.countP (fun e => e.End.isNone) = 0 := by
    rw [List.countP_eq_zero]
    intro e he
    have := hdata e he
    cases hE : e.End with
    | none => rw [hE] at this; simp at this
    | some x => simp
  rw [summedEntries_eq]
  constructor
  · rw [List.countP_append, hcount, zero_add]
    cases currentTask with
    | none => simp
    | some c =>
      simp only [Option.toList_some]
      exact le_trans (List.countP_le_length _) (by simp)
  · intro e he hnone
    rcases List.mem_append.mp he with h | h
    · have := hdata e h
      rw [hnone] at this
      simp at this
    · cases currentTask with
      | none => simp at h
      | some c =>
        simp only [Option.toList_some, List.mem_singleton] at h
        subst h
        exact ⟨rfl, by simp⟩

/-- C8 amended, at one completed fetched entry and a current entry without end. -/
theorem C8_summedEntries_witness :
    (∀ e ∈ [(⟨"0", some "5"⟩ : Entry)], e.End.isSome = true) ∧
    (summedEntries [⟨"0", some "5"⟩] (some ⟨"7", none⟩)).countP
      (fun e => e.End.isNone) ≤ 1 ∧
    ∀ e ∈ summedEntries [⟨"0", some "5"⟩] (some ⟨"7", none⟩), e.End = none →
      some (⟨"7", none⟩ : Entry) = some e ∧
      (summedEntries [⟨"0", some "5"⟩] (some ⟨"7", none⟩)).getLast? = some e :=
  ⟨by decide, C8_summedEntries.2 [⟨"0", some "5"⟩] (some ⟨"7", none⟩) (by decide)⟩

/-! ## A total that wrapped: the hours and minutes of `main` -/

theorem entryMs_large_example (now : ℤ) :
    entryMs now ⟨"0", some "211751118944111936"⟩ = 211751118944111936 := by
  have hA : (strconv.Atoi "211751118944111936").1 = 211751118944111936 := by
    rw [Atoi_decimal _ (by decide) (by decide)]
    decide
  have hB : (strconv.Atoi "0").1 = 0 := by decide
  have hrep : Float64.Representable (211751118944111936 : ℚ) :=
    ⟨6617222467003498, 5, by norm_num, by norm_num⟩
  unfold entryMs
  simp only [hA, hB]
  unfold Float64.ofInt Float64.sub math.Abs
  have e0 : ((0 : ℤ) : ℚ) = 0 := by norm_num
  have e1 : ((211751118944111936 : ℤ) : ℚ) = 211751118944111936 := by norm_num
  rw [e0, e1, Float64.round_zero, Float64.round_of_representable hrep]
  have e2 : |(211751118944111936 : ℚ)| - |(0 : ℚ)| = 211751118944111936 := by norm_num
  rw [e2, Float64.round_of_representable hrep, ← e1,
    Float64.toInt_intCast (by norm_num) (by norm_num)]

theorem sumEntries_wrapped_example :
    sumEntries (fun _ => 0) [⟨"0", some "211751118944111936"⟩, ⟨"0", some "7"⟩] =
      943721999999999936 := by
  have h7 : ∀ now, entryMs now ⟨"0", some "7"⟩ = 7 := by
    intro now
    rw [entryMs_completedDecimal now _ (by decide)]
    decide
  unfold sumEntries sumLoop sumLoop sumLoop
  rw [entryMs_large_example, h7]
  decide

theorem Hours_wrapped_example : time.Hours 943721999999999936 = 262145 := by
  have hq : Int.tdiv 943721999999999936 3600000000000 = 262144 := by decide
  have hr : Int.tmod 943721999999999936 3600000000000 = 3599999999936 := by decide
  unfold time.Hours
  simp only [hq, hr, hoursConst]
  rw [Float64.ofInt_exact (by norm_num), Float64.ofInt_exact (by norm_num)]
  unfold Float64.add Float64.div
  have rlo : Float64.Representable ((137438953469 : ℚ) / 2 ^ 37) :=
    ⟨137438953469, -37, by norm_num, by norm_num⟩
  have rhi : Float64.Representable (1 : ℚ) := ⟨1, 0, by norm_num, by norm_num⟩
  obtain ⟨f1, f2⟩ := Float64.round_between rlo rhi
    (x := ((3599999999936 : ℤ) : ℚ) / ((3600000000000 : ℤ) : ℚ))
    (by norm_num) (by norm_num)
  have up : Float64.round (((262144 : ℤ) : ℚ) + 1) = 262145 := by
    have : (((262144 : ℤ) : ℚ) + 1) = ((262145 : ℤ) : ℚ) := by norm_num
    rw [this, Float64.round_of_representable (Float64.representable_intCast (by norm_num))]
    norm_num
  have lo : Float64.round (((262144 : ℤ) : ℚ) + (137438953469 : ℚ) / 2 ^ 37) = 262145 := by
    rw [Float64.round_eq_of_near (-34) 4503616807239680] <;> norm_num [abs_of_pos]
  apply le_antisymm
  · rw [← up]
    exact Float64.round_mono (by linarith)
  · rw [← lo]
    exact Float64.round_mono (by linarith)

theorem Minutes_wrapped_example :
    time.Minutes 943721999999999936 = 15728700 - 1 / 2 ^ 29 := by
  have hq : Int.tdiv 943721999999999936 60000000000 = 15728699 := by decide
  have hr : Int.tmod 943721999999999936 60000000000 = 59999999936 := by decide
  unfold time.Minutes
  simp only [hq, hr, minutesConst]
  rw [Float64.ofInt_exact (by norm_num), Float64.ofInt_exact (by norm_num)]
  unfold Float64.add Float64.div
  have rlo : Float64.Representable ((536870911 : ℚ) / 2 ^ 29) :=
    ⟨536870911, -29, by norm_num, by norm_num⟩
  have rhi : Float64.Representable ((17179869167 : ℚ) / 2 ^ 34) :=
    ⟨17179869167, -34, by norm_num, by norm_num⟩
  obtain ⟨f1, f2⟩ := Float64.round_between rlo rhi
    (x := ((59999999936 : ℤ) : ℚ) / ((60000000000 : ℤ) : ℚ))
    (by norm_num) (by norm_num)
  have hlo : Float64.round (((15728699 : ℤ) : ℚ) + (536870911 : ℚ) / 2 ^ 29) =
      15728700 - 1 / 2 ^ 29 := by
    have hrep : Float64.Representable (((15728699 : ℤ) : ℚ) + (536870911 : ℚ) / 2 ^ 29) :=
      ⟨8444281513574399, -29, by norm_num, by norm_num⟩
    rw [Float64.round_of_representable hrep]
    norm_num
  have hhi : Float64.round (((15728699 : ℤ) : ℚ) + (17179869167 : ℚ) / 2 ^ 34) =
      15728700 - 1 / 2 ^ 29 := by
    rw [Float64.round_eq_of_near (-29) 8444281513574399] <;> norm_num [abs_of_pos]
  apply le_antisymm
  · rw [← hhi]
    exact Float64.round_mono (by linarith)
  · rw [← hlo]
    exact Float64.round_mono (by linarith)

theorem hoursOf_wrapped_example : hoursOf 943721999999999936 = 262145 := by
  unfold hoursOf math.Floor
  rw [Hours_wrapped_example]
  norm_num

theorem minutesOf_wrapped_example : minutesOf 943721999999999936 = -1 := by
  unfold minutesOf
  rw [hoursOf_wrapped_example, Minutes_wrapped_example]
  unfold Float64.mul Float64.sub math.Floor
  have e1 : (((262145 : ℤ) : ℚ) * 60) = ((15728700 : ℤ) : ℚ) := by norm_num
  rw [e1, Float64.round_of_representable (Float64.representable_intCast (by norm_num))]
  have e2 : ((15728700 : ℚ) - 1 / 2 ^ 29 - ((15728700 : ℤ) : ℚ)) = -1 / 2 ^ 29 := by
    norm_num
  rw [e2, Float64.round_of_representable ⟨-1, -29, by norm_num, by norm_num⟩,
    Int.floor_eq_iff]
  norm_num

theorem totalMinutes_ms (ms : ℤ) :
    totalMinutes (ms * time.Millisecond) = (ms : ℚ) / ((60000 : ℕ) : ℚ) := by
  unfold totalMinutes time.Millisecond
  push_cast
  rw [div_eq_div_iff (by norm_num) (by norm_num)]
  ring

theorem floor_totalMinutes_ms (ms : ℤ) :
    ⌊totalMinutes (ms * time.Millisecond)⌋ = ms / 60000 := by
  rw [totalMinutes_ms, Rat.floor_intCast_div_natCast]
  norm_num

theorem floor_totalHours_ms (ms : ℤ) :
    ⌊totalMinutes (ms * time.Millisecond) / 60⌋ = ms / 3600000 := by
  have e : totalMinutes (ms * time.Millisecond) / 60 = (ms : ℚ) / ((3600000 : ℕ) : ℚ) := by
    rw [totalMinutes_ms, div_div]
    norm_num
  rw [e, Rat.floor_intCast_div_natCast]
  norm_num

/-! ## Claims about the hours, the minutes and the printed line -/

/-- C6, counterexample: the two completed entries `{0, 211751118944111936}` and
`{0, 7}` sum to 211,751,118,944,111,943 ms, which the multiplication by
`time.Millisecond` wraps to 943,721,999,999,999,936 ns. For this total `main`
derives 262,145 hours, one more than the floor 262,144 of the exact hours,
and -1 minutes. -/
theorem C6_counterexample :
    sumEntries (fun _ => 0) [⟨"0", some "211751118944111936"⟩, ⟨"0", some "7"⟩] =
      943721999999999936 ∧
    hoursOf 943721999999999936 = 262145 ∧
    ⌊totalMinutes 943721999999999936 / 60⌋ = 262144 ∧
    hoursOf 943721999999999936 ≠ ⌊totalMinutes 943721999999999936 / 60⌋ ∧
    minutesOf 943721999999999936 = -1 ∧
    ¬(0 ≤ minutesOf 943721999999999936) := by
  have hfl : ⌊totalMinutes 943721999999999936 / 60⌋ = 262144 := by
    unfold totalMinutes
    rw [Int.floor_eq_iff]
    norm_num
  refine ⟨sumEntries_wrapped_example, hoursOf_wrapped_example, hfl, ?_,
    minutesOf_wrapped_example, ?_⟩
  · rw [hoursOf_wrapped_example, hfl]
    decide
  · rw [minutesOf_wrapped_example]
    decide

/-- C6, amended: for every total duration that is a whole number of
milliseconds (negative totals included; its magnitude is at most
9,223,372,036,854 ms in a 64-bit duration), as every total is whose
multiplication by `time.Millisecond` did not wrap, with `total_minutes` the
total expressed in minutes as an exact rational,
the values `main` derives satisfy `hours = floor(total_minutes / 60)` and
`minutes = floor(total_minutes - hours*60)`, hence `0 ≤ minutes ≤ 59` and
`hours*60 + minutes = floor(total_minutes)`; for a total of 90,000 ms this
gives hours 0 and minutes 1. -/
theorem C6_hours_minutes :
    (∀ ms : ℤ, |ms| ≤ 9223372036854 →
      hoursOf (ms * time.Millisecond) = ⌊totalMinutes (ms * time.Millisecond) / 60⌋ ∧
      minutesOf (ms * time.Millisecond) =
        ⌊totalMinutes (ms * time.Millisecond) -
          (hoursOf (ms * time.Millisecond) : ℚ) * 60⌋ ∧
      0 ≤ minutesOf (ms * time.Millisecond) ∧ minutesOf (ms * time.Millisecond) ≤ 59 ∧
      hoursOf (ms * time.Millisecond) * 60 + minutesOf (ms * time.Millisecond) =
        ⌊totalMinutes (ms * time.Millisecond)⌋) ∧
    (hoursOf (90000 * time.Millisecond) = 0 ∧ minutesOf (90000 * time.Millisecond) = 1) := by
  have hH : ∀ ms : ℤ, |ms| ≤ 9223372036854 →
      hoursOf (ms * time.Millisecond) = ms / 3600000 := fun ms h => hoursOf_ms ms h
  have hM : ∀ ms : ℤ, |ms| ≤ 9223372036854 →
      minutesOf (ms * time.Millisecond) = ms / 60000 - 60 * (ms / 3600000) :=
    fun ms h => minutesOf_ms ms h
  constructor
  · intro ms h
    rw [hH ms h, hM ms h, floor_totalHours_ms, floor_totalMinutes_ms]
    have e : totalMinutes (ms * time.Millisecond) - ((ms / 3600000 : ℤ) : ℚ) * 60 =
        totalMinutes (ms * time.Millisecond) - ((ms / 3600000 * 60 : ℤ) : ℚ) := by
      push_cast
      ring
    rw [e, Int.floor_sub_int, floor_totalMinutes_ms]
    refine ⟨rfl, ?_, ?_, ?_, ?_⟩ <;> omega
  · rw [hH 90000 (by decide), hM 90000 (by decide)]
    decide

/-- C6 amended, at a total of -1 ms: -1 hours and 59 minutes. -/
theorem C6_hours_minutes_witness :
    |(-1 : ℤ)| ≤ 9223372036854 ∧
    hoursOf (-1 * time.Millisecond) = ⌊totalMinutes (-1 * time.Millisecond) / 60⌋ ∧
    minutesOf (-1 * time.Millisecond) =
      ⌊totalMinutes (-1 * time.Millisecond) -
        (hoursOf (-1 * time.Millisecond) : ℚ) * 60⌋ ∧
    0 ≤ minutesOf (-1 * time.Millisecond) ∧ minutesOf (-1 * time.Millisecond) ≤ 59 ∧
    hoursOf (-1 * time.Millisecond) * 60 + minutesOf (-1 * time.Millisecond) =
      ⌊totalMinutes (-1 * time.Millisecond)⌋ :=
  ⟨by decide, C6_hours_minutes.1 (-1) (by decide)⟩

/-- The line of `main` for a total of `ms` whole milliseconds that did not
wrap and stays below one million hours. -/
theorem main_eq_decimal (data : List Entry) (currentTask : Option Entry) (clock : ℕ → ℤ)
    (ms : ℤ) (hs : sumEntries clock (summedEntries data currentTask) = ms * time.Millisecond)
    (h : |ms| ≤ 9223372036854) (hH : |ms / 3600000| < 1000000) :
    main data currentTask clock =
      decimal (ms / 3600000) ++ ":" ++ decimal (ms / 60000 % 60) ++
        (if currentTask.isSome then " [+]" else "") ++
        (if 28800000 ≤ ms then " [!]" else "") ++ "\n" := by
  unfold main
  simp only
  rw [hs]
  unfold time.Millisecond
  rw [hoursOf_ms ms h, minutesOf_ms ms h]
  have e : ms / 60000 - 60 * (ms / 3600000) = ms / 60000 % 60 := by omega
  rw [e, fmt.formatFloat_small _ (by rw [abs_lt] at hH; omega),
    fmt.formatFloat_small _ (by omega)]
  have hflag : overtimeFlag (ms / 3600000) = (if 28800000 ≤ ms then " [!]" else "") := by
    unfold overtimeFlag
    by_cases h8 : 28800000 ≤ ms
    · rw [if_pos h8, if_pos (by omega)]
    · rw [if_neg h8, if_neg (by omega)]
  rw [hflag]
  rfl

theorem sumEntries_single_completed (clock : ℕ → ℤ) (data : List Entry)
    (currentTask : Option Entry) (e : Entry) (ms : ℤ)
    (hl : summedEntries data currentTask = [e]) (he : completedDecimal e = true)
    (hms : intervalMs e = ms) (h : |ms| ≤ 9223372036854) :
    sumEntries clock (summedEntries data currentTask) = ms * time.Millisecond := by
  rw [hl, sumEntries_completedDecimal clock [e] (by simpa using he)]
  simp only [List.map_cons, List.map_nil, List.sum_cons, List.sum_nil, add_zero]
  rw [hms, wrap64_ms h]
  rfl

/-- C5, counterexample: a total of exactly 8 hours with no current entry
prints `8:0 [!]`, with a space before the marker, not `8:0[!]`; a current
entry and a zero total print `0:0 [+]`, not `0:0[+]`; a fetched entry without
end and no current entry print `0:0` although an ongoing interval is summed;
and a total of one million hours prints the hours as `1e+06`. -/
theorem C5_counterexample :
    main [⟨"0", some "28800000"⟩] none (fun _ => 0) = "8:0 [!]\n" ∧
    main [⟨"0", some "28800000"⟩] none (fun _ => 0) ≠ "8:0[!]\n" ∧
    main [] (some ⟨"0", some "0"⟩) (fun _ => 0) = "0:0 [+]\n" ∧
    main [] (some ⟨"0", some "0"⟩) (fun _ => 0) ≠ "0:0[+]\n" ∧
    ((∃ e ∈ summedEntries [⟨"0", none⟩] none, e.End = none) ∧
      main [⟨"0", none⟩] none (fun _ => 0) = "0:0\n") ∧
    main [⟨"0", some "3600000000000"⟩] none (fun _ => 0) = "1e+06:0 [!]\n" := by
  have h4 : main [⟨"0", none⟩] none (fun _ => 0) = "0:0\n" := by
    have hs : sumEntries (fun _ => 0) (summedEntries [⟨"0", none⟩] none) =
        0 * time.Millisecond := by
      show sumEntries (fun _ => 0) [⟨"0", none⟩] = _
      rw [sumEntries_singleton, entryMs_ongoing _ _ (by decide) (by decide) (by decide)]
      decide
    rw [main_eq_decimal _ _ _ 0 hs (by decide) (by decide)]
    decide
  have h1 : main [⟨"0", some "28800000"⟩] none (fun _ => 0) = "8:0 [!]\n" := by
    rw [main_eq_decimal _ _ _ 28800000
      (sumEntries_single_completed _ [⟨"0", some "28800000"⟩] none ⟨"0", some "28800000"⟩ _ rfl (by decide)
        (by decide) (by decide)) (by decide) (by decide)]
    decide
  have h2 : main [] (some ⟨"0", some "0"⟩) (fun _ => 0) = "0:0 [+]\n" := by
    rw [main_eq_decimal _ _ _ 0
      (sumEntries_single_completed _ [] (some ⟨"0", some "0"⟩) ⟨"0", some "0"⟩ _ rfl (by decide)
        (by decide) (by decide)) (by decide) (by decide)]
    decide
  have h3 : main [⟨"0", some "3600000000000"⟩] none (fun _ => 0) = "1e+06:0 [!]\n" := by
    have hs : sumEntries (fun _ => 0) (summedEntries [⟨"0", some "3600000000000"⟩] none) =
        3600000000000 * 1000000 :=
      sumEntries_single_completed _ [⟨"0", some "3600000000000"⟩] none
        ⟨"0", some "3600000000000"⟩ _ rfl (by decide)
        (by decide) (by decide)
    unfold main
    simp only
    rw [hs, hoursOf_ms _ (by decide), minutesOf_ms _ (by decide)]
    decide
  refine ⟨h1, ?_, h2, ?_, ⟨by decide, h4⟩, h3⟩
  · rw [h1]
    decide
  · rw [h2]
    decide

/-- C5, amended: for every summed total and every current-entry response, the
single line `main` prints is the hours `H`, a colon, the minutes `M`, then a
space and `[+]` exactly when the current-entry response holds an entry, then a
space and `[!]` exactly when `H ≥ 8`, and nothing else before the newline,
`H` and `M` being the values `main` derives, written by the verb `%v`. When the
total is a whole number `ms` of milliseconds that did not wrap and is below one
million hours in magnitude, `H` and `M` are the floored hours and the floored
minutes of the hour in plain decimal. For the empty list with no current entry
the line is `0:0` and for the single completed interval
`{start 0, end 3600000}` it is `1:0`. -/
theorem C5_printed_line :
    (∀ (data : List Entry) (currentTask : Option Entry) (clock : ℕ → ℤ),
      main data currentTask clock =
        fmt.formatFloat (hoursOf (sumEntries clock (summedEntries data currentTask))) ++ ":" ++
          fmt.formatFloat (minutesOf (sumEntries clock (summedEntries data currentTask))) ++
          (if currentTask.isSome then " [+]" else "") ++
          (if 8 ≤ hoursOf (sumEntries clock (summedEntries data currentTask)) then " [!]"
            else "") ++ "\n") ∧
    (∀ (data : List Entry) (currentTask : Option Entry) (clock : ℕ → ℤ) (ms : ℤ),
      sumEntries clock (summedEntries data currentTask) = ms * time.Millisecond →
      |ms| ≤ 9223372036854 → |ms / 3600000| < 1000000 →
      main data currentTask clock =
        decimal (ms / 3600000) ++ ":" ++ decimal (ms / 60000 % 60) ++
          (if currentTask.isSome then " [+]" else "") ++
          (if 28800000 ≤ ms then " [!]" else "") ++ "\n") ∧
    (∀ clock : ℕ → ℤ, main [] none clock = "0:0\n") ∧
    (∀ clock : ℕ → ℤ, main [⟨"0", some "3600000"⟩] none clock = "1:0\n") := by
  refine ⟨fun data currentTask clock => rfl, main_eq_decimal, ?_, ?_⟩
  · intro clock
    have hs : sumEntries clock (summedEntries [] none) = 0 * time.Millisecond := by
      show wrap64 (0 * time.Millisecond) = _
      decide
    rw [main_eq_decimal _ _ _ 0 hs (by decide) (by decide)]
    decide
  · intro clock
    rw [main_eq_decimal _ _ _ 3600000
      (sumEntries_single_completed _ [⟨"0", some "3600000"⟩] none ⟨"0", some "3600000"⟩ _ rfl (by decide)
        (by decide) (by decide)) (by decide) (by decide)]
    decide

/-- C5 amended, at the single completed interval `{0, 5400000}` with the
current entry absent: the line is `1:30`. -/
theorem C5_printed_line_witness :
    sumEntries (fun _ => 0) (summedEntries [⟨"0", some "5400000"⟩] none) =
      5400000 * time.Millisecond ∧
    |(5400000 : ℤ)| ≤ 9223372036854 ∧ |(5400000 : ℤ) / 3600000| < 1000000 ∧
    main [⟨"0", some "5400000"⟩] none (fun _ => 0) =
      decimal (5400000 / 3600000) ++ ":" ++ decimal (5400000 / 60000 % 60) ++
        (if (none : Option Entry).isSome then " [+]" else "") ++
        (if (28800000 : ℤ) ≤ 5400000 then " [!]" else "") ++ "\n" :=
  ⟨sumEntries_single_completed _ [⟨"0", some "5400000"⟩] none ⟨"0", some "5400000"⟩ _ rfl (by decide) (by decide)
      (by decide), by decide, by decide,
    C5_printed_line.2.1 [⟨"0", some "5400000"⟩] none (fun _ => 0) 5400000
      (sumEntries_single_completed _ [⟨"0", some "5400000"⟩] none ⟨"0", some "5400000"⟩ _ rfl (by decide)
        (by decide) (by decide)) (by decide) (by decide)⟩
